import Mathlib

/-
  Verification development for the funnel-finder pipeline of this
  repository: URL policy (normalization / origin comparison / tracking
  parameter stripping), robots policy, sitemap discovery, the bounded
  internal-link crawler, the funnel builder (bounded BFS with parent
  pointers), and the report formatter.

  The network layer is abstracted as explicit oracles (the extracted
  links of a page, the outcome of fetching a sitemap document).  All
  pure logic is translated directly from the source.  JavaScript `URL`
  objects are modelled by the `Url` structure together with `parseUrl`
  (a `new URL(s)` call that would throw is modelled as `none`); the
  model covers hierarchical lowercase http/https URLs and ignores
  percent-encoding normalization, which the source never relies on.
-/

namespace VesScrape

/-- splitFirst c l returns the part of l strictly before the first
occurrence of c and, when c occurs in l, the part strictly after it. -/
def splitFirst (c : Char) : List Char → List Char × Option (List Char)
  | [] => ([], none)
  | x :: xs =>
    if x = c then ([], some xs)
    else
      let r := splitFirst c xs
      (x :: r.1, r.2)

/-- splitAllAux is the accumulator worker for splitAll. -/
def splitAllAux (c : Char) : List Char → List Char → List (List Char)
  | [], acc => [acc.reverse]
  | x :: xs, acc =>
    if x = c then acc.reverse :: splitAllAux c xs []
    else splitAllAux c xs (x :: acc)

/-- splitAll c l splits l at every occurrence of c. -/
def splitAll (c : Char) (l : List Char) : List (List Char) :=
  splitAllAux c l []

/-- joinSep sep parts concatenates parts with sep in between. -/
def joinSep (sep : List Char) : List (List Char) → List Char
  | [] => []
  | [x] => x
  | x :: y :: rest => x ++ sep ++ joinSep sep (y :: rest)

/-- A parsed URL: the model of a JavaScript `URL` object as used by the
source (scheme = protocol without the colon, host including any port,
path always starting with a slash, the ordered query parameter list,
and the fragment). -/
structure Url where
  scheme : String
  host : String
  path : String
  query : List (String × String)
  fragment : Option String
  deriving DecidableEq, Repr

/-- querySeg turns one nonempty query segment into a key/value pair by
splitting at the first equals sign; empty segments are dropped. -/
def querySeg (seg : List Char) : Option (String × String) :=
  match seg with
  | [] => none
  | _ =>
    let sp := splitFirst '=' seg
    some (String.mk sp.1, String.mk (sp.2.getD []))

/-- parseQuery models how `URLSearchParams` reads a raw query string:
split on ampersands, drop empty segments, split each segment at its
first equals sign. -/
def parseQuery (qs : List Char) : List (String × String) :=
  (splitAll '&' qs).filterMap querySeg

/-- serializeQuery models `URLSearchParams.toString`: every pair is
rendered `key=value` and pairs are joined with ampersands. -/
def serializeQuery (q : List (String × String)) : List Char :=
  joinSep ['&'] (q.map fun p => p.1.data ++ '=' :: p.2.data)

/-- stripScheme recognizes the literal scheme part of an http/https URL
string (the source tests `/^https?:\/\//` before constructing a URL)
and returns the scheme together with the remaining characters. -/
def stripScheme : List Char → Option (String × List Char)
  | 'h' :: 't' :: 't' :: 'p' :: 's' :: ':' :: '/' :: '/' :: rest => some ("https", rest)
  | 'h' :: 't' :: 't' :: 'p' :: ':' :: '/' :: '/' :: rest => some ("http", rest)
  | _ => none

/-- parseUrl models `new URL(s)` for absolute http/https URL strings;
a constructor call that would throw is modelled as `none`.  The
fragment is everything after the first hash, the query everything
after the first question mark before the fragment, the host everything
up to the first slash, and the path the rest (defaulting to "/"). -/
def parseUrl (s : String) : Option Url :=
  match stripScheme s.data with
  | none => none
  | some (sch, rest) =>
    let f := splitFirst '#' rest
    let q := splitFirst '?' f.1
    let hp := splitFirst '/' q.1
    if hp.1 = [] then none
    else
      some
        { scheme := sch
          host := String.mk hp.1
          path := String.mk ('/' :: hp.2.getD [])
          query := parseQuery (q.2.getD [])
          fragment := f.2.map String.mk }

/-- Url.toStr models `URL.toString()` (the serializer): scheme, "://",
host, path, then the query (omitted when the parameter list is empty)
and the fragment. -/
def Url.toStr (u : Url) : String :=
  u.scheme ++ "://" ++ u.host ++ u.path ++
    (match u.query with
     | [] => ""
     | _ => "?" ++ String.mk (serializeQuery u.query)) ++
    (match u.fragment with
     | none => ""
     | some fr => "#" ++ fr)

/-- Url.WF collects the structural facts that hold of every URL value
produced by parseUrl; they are exactly what makes the serializer and
the parser mutually inverse. -/
def Url.WF (u : Url) : Prop :=
  (u.scheme = "http" ∨ u.scheme = "https") ∧
  u.host.data ≠ [] ∧
  (∀ ch ∈ u.host.data, ch ≠ '/' ∧ ch ≠ '?' ∧ ch ≠ '#') ∧
  (∃ rest, u.path.data = '/' :: rest) ∧
  (∀ ch ∈ u.path.data, ch ≠ '?' ∧ ch ≠ '#') ∧
  (∀ p ∈ u.query,
    (∀ ch ∈ p.1.data, ch ≠ '&' ∧ ch ≠ '=' ∧ ch ≠ '#') ∧
    (∀ ch ∈ p.2.data, ch ≠ '&' ∧ ch ≠ '#'))

/-- The fixed denylist of tracking query keys removed by stripUtm. -/
def utmKeys : List String :=
  ["utm_source", "utm_medium", "utm_campaign", "utm_term", "utm_content",
   "gclid", "fbclid", "msclkid", "ttclid", "twclid", "li_fat_id", "wbraid", "gbraid"]

/-- stripUtm on a parsed URL: deleting each denylisted key from the
search parameters (as `searchParams.delete` does for every occurrence)
is filtering the parameter list by key. -/
def stripUtm (u : Url) : Url :=
  { u with query := u.query.filter fun p => decide (p.1 ∉ utmKeys) }

/-- stripUtmStr is the string-level stripUtm of the source: parse the
URL (throw = none), delete the denylisted keys, serialize. -/
def stripUtmStr (s : String) : Option String :=
  (parseUrl s).map fun u => (stripUtm u).toStr

/-- sameOrigin on parsed URLs: protocol and host must match exactly. -/
def sameOrigin (a b : Url) : Bool :=
  a.scheme = b.scheme && a.host = b.host

/-- sameOriginStr is the string-level sameOrigin of the source; it
parses both arguments, so an unparsable argument is a thrown
exception, modelled as none. -/
def sameOriginStr (a b : String) : Option Bool :=
  match parseUrl a, parseUrl b with
  | some ua, some ub => some (sameOrigin ua ub)
  | _, _ => none

/-- listStarts hay needle is true when needle is a prefix of hay. -/
def listStarts : List Char → List Char → Bool
  | _, [] => true
  | [], _ :: _ => false
  | a :: as, b :: bs => a == b && listStarts as bs

/-- strStarts models JavaScript `path.startsWith(prefix)` as a plain
character prefix test. -/
def strStarts (s pre : String) : Bool :=
  listStarts s.data pre.data

/-- Robots rules: sitemap URLs plus the best-effort disallow prefixes
collected for the wildcard user agent. -/
structure RobotsRules where
  sitemaps : List String
  disallow : List String
  deriving DecidableEq, Repr

/-- isAllowedByRobots: an off-origin candidate is always denied;
otherwise the candidate is denied exactly when its path starts with a
nonempty recorded disallow prefix (the source skips empty entries via
`if (!dis) continue`). -/
def isAllowedByRobots (base : Url) (rules : RobotsRules) (cand : Url) : Bool :=
  if sameOrigin base cand then
    let path := if cand.path = "" then "/" else cand.path
    rules.disallow.all fun dis => dis == "" || ! strStarts path dis
  else false

/-- listHas hay needle is true when needle occurs inside hay; it models
JavaScript `String.includes`. -/
def listHas : List Char → List Char → Bool
  | [], needle => needle.isEmpty
  | h :: t, needle => listStarts (h :: t) needle || listHas t needle

/-- strContains models `s.includes(sub)`. -/
def strContains (s sub : String) : Bool :=
  listHas s.data sub.data

/-- strEnds models a `$`-anchored match of a literal at the end of a
string. -/
def strEnds (s suf : String) : Bool :=
  listStarts s.data.reverse suf.data.reverse

/-- charLower is ASCII lowercasing of one character; strLower models
JavaScript `toLowerCase` on the ASCII range that URL paths use. -/
def charLower (c : Char) : Char :=
  if 'A' ≤ c ∧ c ≤ 'Z' then Char.ofNat (c.toNat + 32) else c

/-- strLower lowercases a string (ASCII model of `toLowerCase`). -/
def strLower (s : String) : String :=
  String.mk (s.data.map charLower)

/-- The CONVERSION_HINTS token list of the source. -/
def conversionHints : List String :=
  ["checkout", "order", "pay", "cart", "thank", "success", "confirm", "complete"]

/-- isProbablyConversion: the lowercased pathname contains one of the
conversion hints.  The source's `new URL(url)` would throw on an
unparsable argument; callers only pass absolute final URLs, and the
model answers false there. -/
def isProbablyConversion (url : String) : Bool :=
  match parseUrl url with
  | some u => conversionHints.any fun hint => strContains (strLower u.path) hint
  | none => false

/-- The EXCLUDE_KEYWORDS token list of the source. -/
def excludeKeywords : List String :=
  ["faq", "faqs", "blog", "posts", "article", "news",
   "privacy", "terms", "legal", "policy", "cookies",
   "contact", "about", "team", "careers", "jobs", "support", "help",
   "refund", "returns", "shipping", "track-order",
   "documentation", "docs", "knowledge-base"]

/-- The asset extensions excluded by looksExcluded's regex. -/
def assetExtensions : List String :=
  ["png", "jpg", "jpeg", "gif", "webp", "svg", "ico", "css", "js", "map",
   "pdf", "zip", "mp4", "mov", "webm"]

/-- looksExcluded: asset extensions at the end of the lowercased path,
or an excluded keyword as a slash- or hyphen-delimited path token. -/
def looksExcluded (u : Url) : Bool :=
  let path := strLower (if u.path = "" then "/" else u.path)
  (assetExtensions.any fun e => strEnds path ("." ++ e)) ||
  (excludeKeywords.any fun k =>
    strContains path ("/" ++ k) || strContains path ("-" ++ k) ||
      strContains path (k ++ "-"))

/-- dedupAux keeps the first occurrence of each string, dropping those
already seen; this models `Array.from(new Set(list))`. -/
def dedupAux : List String → List String → List String
  | [], _ => []
  | x :: rest, seen =>
    if x ∈ seen then dedupAux rest seen
    else x :: dedupAux rest (x :: seen)

/-- dedupKeepFirst models `Array.from(new Set(list))`: unique elements
in first-occurrence order. -/
def dedupKeepFirst (l : List String) : List String :=
  dedupAux l []

/-- A parsed sitemap document: leaf page URLs and child sitemap URLs.
This models the result of parseSitemapXml on fetched text; a fetch
failure is the `none` of the oracle, a malformed document is an empty
SmParsed. -/
structure SmParsed where
  urls : List String
  childSitemaps : List String
  deriving DecidableEq, Repr

/-- discoverLoop is the sitemap work loop: stop when the queue is empty
or 20 documents were fetched successfully; skip seen URLs; on fetch
failure continue; on success record the document, collect its page
URLs and enqueue its unseen children.  The third result component is
an instrumentation trace listing every issued fetch together with its
success flag, in order. -/
def discoverLoop (fetchSm : String → Option SmParsed) :
    List String → List String → List String → List String →
    List String × List String × List (String × Bool)
  | [], found, urls, _ => (urls, found, [])
  | sm :: rest, found, urls, seen =>
    if _h20 : 20 ≤ found.length then (urls, found, [])
    else if sm ∈ seen then discoverLoop fetchSm rest found urls seen
    else
      match fetchSm sm with
      | none =>
        let r := discoverLoop fetchSm rest found urls (sm :: seen)
        (r.1, r.2.1, (sm, false) :: r.2.2)
      | some parsed =>
        let r := discoverLoop fetchSm
          (rest ++ parsed.childSitemaps.filter fun c => decide (c ∉ sm :: seen))
          (found ++ [sm]) (urls ++ parsed.urls) (sm :: seen)
        (r.1, r.2.1, (sm, true) :: r.2.2)
  termination_by q found _ _ => (20 - found.length, q.length)
  decreasing_by
  · apply Prod.Lex.right
    simp
  · apply Prod.Lex.right
    simp
  · apply Prod.Lex.left
    simp only [List.length_append, List.length_cons, List.length_nil]
    omega

/-- discoverSitemapUrls: seed the queue with `{origin}/sitemap.xml`
plus the caller-supplied sitemap URLs, deduplicated; run the work
loop; return the deduplicated page URLs and fetched sitemap URLs
(plus the instrumentation fetch trace). -/
def discoverSitemapUrls (base : Url) (extraSitemaps : List String)
    (fetchSm : String → Option SmParsed) :
    List String × List String × List (String × Bool) :=
  let defaults := [base.scheme ++ "://" ++ base.host ++ "/sitemap.xml"]
  let r := discoverLoop fetchSm (dedupKeepFirst (defaults ++ extraSitemaps)) [] [] []
  (dedupKeepFirst r.1, dedupKeepFirst r.2.1, r.2.2)

/-- expandLinks processes the resolved absolute link targets of one
crawled page: keep same-origin targets, strip tracking parameters,
skip seen URLs, record the rest as seen, and enqueue those not
excluded by the keyword heuristic, at depth + 1.  The page's raw hrefs
and their resolution (`toAbsoluteUrl`) are abstracted into the
caller-provided link list. -/
def expandLinks (base : Url) (depth : Nat) :
    List Url → List String → List String × List (Url × Nat)
  | [], seen => (seen, [])
  | abs :: restL, seen =>
    if sameOrigin base abs then
      let norm := stripUtm abs
      if norm.toStr ∈ seen then expandLinks base depth restL seen
      else
        let r := expandLinks base depth restL (norm.toStr :: seen)
        if looksExcluded norm then r
        else (r.1, (norm, depth + 1) :: r.2)
    else expandLinks base depth restL seen

/-- crawlLoop is the crawler's work loop, translated from the source's
while loop: stop when the queue is empty, the emitted-page budget is
reached, or the queue exceeds the safety ceiling; drop disallowed
URLs; emit the URL; expand it through its links unless it sits at the
depth budget.  Fetch failures are absorbed into pageLinks returning an
empty list. -/
def crawlLoop (base : Url) (rules : RobotsRules) (pageLinks : Url → List Url)
    (maxPages maxDepth maxQueue : Nat) :
    List (Url × Nat) → List String → List String → List String
  | [], _, found => found
  | (url, depth) :: rest, seen, found =>
    if _hP : maxPages ≤ found.length then found
    else if _hQ : maxQueue ≤ rest.length + 1 then found
    else if isAllowedByRobots base rules url then
      let found2 := found ++ [url.toStr]
      if maxDepth ≤ depth then
        crawlLoop base rules pageLinks maxPages maxDepth maxQueue rest seen found2
      else
        let e := expandLinks base depth (pageLinks url) seen
        crawlLoop base rules pageLinks maxPages maxDepth maxQueue (rest ++ e.2) e.1 found2
    else
      crawlLoop base rules pageLinks maxPages maxDepth maxQueue rest seen found
  termination_by q seen found => (maxPages - found.length, q.length)
  decreasing_by
  · apply Prod.Lex.left
    simp only [List.length_append, List.length_cons, List.length_nil]
    omega
  · apply Prod.Lex.left
    simp only [List.length_append, List.length_cons, List.length_nil]
    omega
  · apply Prod.Lex.right
    simp

/-- crawlInternalLinks: breadth-first crawl from the normalized seed
URL with the seed's stripped form pre-seeded into the seen set, then
`Array.from(new Set(found))` on the emitted list. -/
def crawlInternalLinks (seed : Url) (rules : RobotsRules)
    (pageLinks : Url → List Url) (maxPages maxDepth : Nat) : List String :=
  dedupKeepFirst
    (crawlLoop seed rules pageLinks maxPages maxDepth 5000
      [(seed, 0)] [(stripUtm seed).toStr] [])

/-- A Page Finding: everything the check-and-score stage records for
one successfully fetched candidate. -/
structure PageFinding where
  url : String
  finalUrl : String
  status : Nat
  score : Nat
  reasons : List String
  title : Option String
  ctaLinks : List String
  allOutLinks : List String
  deriving DecidableEq, Repr

/-- A funnel path as the source builds it.  Note that the steps list
produced by the source's path reconstruction contains the intermediate
nodes followed by the conversion node itself (the landing is
excluded). -/
structure FunnelPath where
  landing : String
  steps : List String
  conversion : String
  confidence : Int
  deriving DecidableEq, Repr

/-- roundJs models JavaScript `Math.round` on the nonnegative rationals
this pipeline produces: round half up. -/
def roundJs (q : ℚ) : ℤ :=
  ⌊q + 1 / 2⌋

/-- alookup is assoc-list lookup, first match wins. -/
def alookup {β : Type} : List (String × β) → String → Option β
  | [], _ => none
  | p :: rest, k => if k = p.1 then some p.2 else alookup rest k

/-- byUrlMap models `new Map(adPages.map(p => [p.finalUrl, p]))`: a
finite map where a later page with the same finalUrl overwrites an
earlier one. -/
def byUrlMap (adPages : List PageFinding) : String → Option PageFinding :=
  adPages.foldl (fun m p => fun k => if k = p.finalUrl then some p else m k)
    (fun _ => none)

/-- edgesOf: the weighted adjacency row of one ad-like page — its CTA
links that stay inside the ad-like set first, then its remaining
internal links inside the set that are not already CTA links. -/
def edgesOf (byUrl : String → Option PageFinding) (p : PageFinding) : List String :=
  let ctas := p.ctaLinks.filter fun l => (byUrl l).isSome
  let others := p.allOutLinks.filter fun l => (byUrl l).isSome && decide (l ∉ ctas)
  ctas ++ others

/-- mkAdjList builds the adjacency map of buildFunnels; prepending
while folding gives `Map.set` overwrite semantics under first-match
lookup. -/
def mkAdjList (adPages : List PageFinding) (byUrl : String → Option PageFinding) :
    List (String × List String) :=
  adPages.foldl (fun m p => (p.finalUrl, edgesOf byUrl p) :: m) []

/-- The BFS bookkeeping state of buildFunnels: the visited set, the
parent map of the search tree, and the depth map.  The source stores
`null` as the start node's parent; `parent.get(cur) || null` makes
that indistinguishable from an absent entry, so the model records only
real parents. -/
structure BfsSt where
  visited : List String
  parent : List (String × String)
  depth : List (String × Nat)
  deriving DecidableEq, Repr

/-- The result of one BFS run: the conversion node found (if any), the
final bookkeeping state, and an instrumentation trace of the nodes
that were conversion-checked, in dequeue order. -/
structure BfsOut where
  conv : Option String
  fin : BfsSt
  trace : List String
  deriving DecidableEq, Repr

/-- expandBfs pushes the unvisited neighbours of the dequeued node:
each is marked visited, given a parent pointer and depth d + 1, and
appended to the queue in link order. -/
def expandBfs (cur : String) (d : Nat) :
    List String → BfsSt → BfsSt × List String
  | [], st => (st, [])
  | nxt :: ls, st =>
    if nxt ∈ st.visited then expandBfs cur d ls st
    else
      let st2 : BfsSt :=
        { visited := nxt :: st.visited
          parent := (nxt, cur) :: st.parent
          depth := (nxt, d + 1) :: st.depth }
      let r := expandBfs cur d ls st2
      (r.1, nxt :: r.2)

/-- allTargets: every node that can ever be enqueued by the BFS (the
union of all adjacency rows); used only for the termination measure. -/
def allTargets (adjList : List (String × List String)) : List String :=
  (adjList.map Prod.snd).flatten

/-- countFresh counts adjacency targets not yet visited; used only for
the termination measure. -/
def countFresh (adjList : List (String × List String)) (visited : List String) : Nat :=
  ((allTargets adjList).filter fun x => decide (x ∉ visited)).length

/-- bfsLoop is the funnel search of buildFunnels: dequeue; skip nodes
beyond the step budget; stop at the first dequeued node other than the
start that matches the conversion heuristic; otherwise push unvisited
neighbours and continue.  The trace lists the conversion-checked nodes
in order. -/
def bfsLoop (adjList : List (String × List String)) (start : String) (maxSteps : Nat) :
    BfsSt → List String → BfsOut
  | st, [] => { conv := none, fin := st, trace := [] }
  | st, cur :: rest =>
    let d := (alookup st.depth cur).getD 0
    if maxSteps < d then bfsLoop adjList start maxSteps st rest
    else if (cur != start) && isProbablyConversion cur then
      { conv := some cur, fin := st, trace := [cur] }
    else
      let e := expandBfs cur d ((alookup adjList cur).getD []) st
      let r := bfsLoop adjList start maxSteps e.1 (rest ++ e.2)
      { conv := r.conv, fin := r.fin, trace := cur :: r.trace }
  termination_by st q => countFresh adjList st.visited + q.length
  decreasing_by
  · simp only [List.length_cons]
    omega
  · have hmono : ∀ (vis : List String) (x : String) (m : List String),
        (m.filter fun y => decide (y ∉ x :: vis)).length ≤
          (m.filter fun y => decide (y ∉ vis)).length := by
      intro vis x m
      induction m with
      | nil => simp
      | cons b bs ihb =>
        by_cases hb : b ∈ vis
        · have hb2 : b ∈ x :: vis := List.mem_cons_of_mem x hb
          simp only [List.filter_cons, decide_eq_true_eq]
          rw [if_neg (by simp [hb2]), if_neg (by simp [hb])]
          exact ihb
        · by_cases hbx : b = x
          · subst hbx
            simp only [List.filter_cons, decide_eq_true_eq]
            rw [if_neg (by simp), if_pos (by simp [hb])]
            simp only [List.length_cons]
            omega
          · have hb2 : b ∉ x :: vis := by
              intro hm
              rcases List.mem_cons.1 hm with he | hm'
              · exact hbx he
              · exact hb hm'
            simp only [List.filter_cons, decide_eq_true_eq]
            rw [if_pos (by simp [hb2]), if_pos (by simp [hb])]
            simp only [List.length_cons]
            exact Nat.succ_le_succ ihb
    have hdrop : ∀ (x : String) (vis : List String), x ∈ allTargets adjList →
        x ∉ vis → countFresh adjList (x :: vis) + 1 ≤ countFresh adjList vis := by
      intro x vis hx hnv
      unfold countFresh
      have : ∀ l : List String, x ∈ l →
          (l.filter fun y => decide (y ∉ x :: vis)).length + 1 ≤
            (l.filter fun y => decide (y ∉ vis)).length := by
        intro l hxl
        induction l with
        | nil => simp at hxl
        | cons a as iha =>
          rcases List.mem_cons.1 hxl with he | ha
          · subst he
            simp only [List.filter_cons, decide_eq_true_eq]
            rw [if_neg (by simp), if_pos (by simp [hnv])]
            simp only [List.length_cons]
            exact Nat.succ_le_succ (hmono _ _ _)
          · by_cases hav : a ∈ vis
            · have ha2 : a ∈ x :: vis := List.mem_cons_of_mem x hav
              simp only [List.filter_cons, decide_eq_true_eq]
              rw [if_neg (by simp [ha2]), if_neg (by simp [hav])]
              exact iha ha
            · by_cases hax : a = x
              · subst hax
                simp only [List.filter_cons, decide_eq_true_eq]
                rw [if_neg (by simp), if_pos (by simp [hav])]
                simp only [List.length_cons]
                exact Nat.le_succ_of_le (iha ha)
              · have ha2 : a ∉ x :: vis := by
                  intro hm
                  rcases List.mem_cons.1 hm with he | hm'
                  · exact hax he
                  · exact hav hm'
                simp only [List.filter_cons, decide_eq_true_eq]
                rw [if_pos (by simp [ha2]), if_pos (by simp [hav])]
                simp only [List.length_cons]
                exact Nat.succ_le_succ (iha ha)
      exact this _ hx
    have hsub : ∀ x ∈ (alookup adjList cur).getD [], x ∈ allTargets adjList := by
      have : ∀ (al : List (String × List String)) (k : String) (vs : List String),
          alookup al k = some vs → ∀ x ∈ vs, x ∈ (al.map Prod.snd).flatten := by
        intro al
        induction al with
        | nil =>
          intro k vs h
          simp [alookup] at h
        | cons p ps ihp =>
          intro k vs h x hx
          by_cases hk : k = p.1
          · rw [alookup, if_pos hk] at h
            have hvs := Option.some.inj h
            simp only [List.map_cons, List.flatten]
            exact List.mem_append.2 (Or.inl (hvs ▸ hx))
          · rw [alookup, if_neg hk] at h
            simp only [List.map_cons, List.flatten]
            exact List.mem_append.2 (Or.inr (ihp k vs h x hx))
      cases hak : alookup adjList cur with
      | none => simp
      | some vs =>
        simp only [Option.getD_some]
        exact this adjList cur vs hak
    have hexp : ∀ (links : List String) (st0 : BfsSt),
        (∀ x ∈ links, x ∈ allTargets adjList) →
        countFresh adjList (expandBfs cur ((alookup st.depth cur).getD 0) links st0).1.visited +
            (expandBfs cur ((alookup st.depth cur).getD 0) links st0).2.length ≤
          countFresh adjList st0.visited := by
      intro links
      induction links with
      | nil =>
        intro st0 _
        simp [expandBfs]
      | cons nxt ls ihl =>
        intro st0 hl
        by_cases hv : nxt ∈ st0.visited
        · rw [expandBfs, if_pos hv]
          exact ihl st0 fun x hx => hl x (List.mem_cons_of_mem nxt hx)
        · rw [expandBfs, if_neg hv]
          simp only [List.length_cons]
          have h1 := ihl
            { visited := nxt :: st0.visited
              parent := (nxt, cur) :: st0.parent
              depth := (nxt, (alookup st.depth cur).getD 0 + 1) :: st0.depth }
            (fun x hx => hl x (List.mem_cons_of_mem nxt hx))
          have h2 := hdrop nxt st0.visited (hl nxt (List.mem_cons_self nxt ls)) hv
          simp only at h1
          omega
    have hfin := hexp ((alookup adjList cur).getD []) st hsub
    simp only [List.length_append, List.length_cons]
    omega

/-- reconstruct is the parent-pointer walk of buildFunnels: starting
at the conversion node, push each node and step to its parent until
the start node (or a missing parent, which the source's
`parent.get(cur) || null` treats like the stored null of the start) is
reached.  The source's while loop carries no fuel; the fuel argument
only bounds the recursion and is passed large enough at the call
site. -/
def reconstruct (parent : List (String × String)) (start : String) :
    Nat → String → List String
  | 0, _ => []
  | fuel + 1, cur =>
    if cur = start then []
    else
      cur ::
        (match alookup parent cur with
         | some p => reconstruct parent start fuel p
         | none => [])

/-- insertFunnel inserts into a descending-confidence sorted list,
after entries of equal confidence; sortFunnelsDesc is therefore the
stable descending sort of `funnels.sort((a, b) => b.confidence -
a.confidence)`. -/
def insertFunnel (f : FunnelPath) : List FunnelPath → List FunnelPath
  | [] => [f]
  | g :: rest =>
    if g.confidence ≤ f.confidence then f :: g :: rest
    else g :: insertFunnel f rest

/-- sortFunnelsDesc: stable sort, descending by confidence. -/
def sortFunnelsDesc : List FunnelPath → List FunnelPath
  | [] => []
  | f :: rest => insertFunnel f (sortFunnelsDesc rest)

/-- dedupeFunnels keeps the first funnel for each landing/conversion
key, as the source's seen-set filter does. -/
def dedupeFunnels : List FunnelPath → List String → List FunnelPath
  | [], _ => []
  | f :: rest, seen =>
    let key := f.landing ++ "→" ++ f.conversion
    if key ∈ seen then dedupeFunnels rest seen
    else f :: dedupeFunnels rest (key :: seen)

/-- funnelStep is one iteration of buildFunnels' landing loop: skip
landings below the ad-like threshold or already matching the
conversion heuristic; run the bounded BFS; on success reconstruct the
path (the reconstruct push order is conversion first, then reversed)
and compute the confidence
`Math.round(Math.min(100, 2*landingScore + convScore + (steps.length ?
10/steps.length : 0)))`. -/
def funnelStep (byUrl : String → Option PageFinding)
    (adjList : List (String × List String)) (start : PageFinding) :
    Option FunnelPath :=
  if start.score < 18 then none
  else if isProbablyConversion start.finalUrl then none
  else
    let out := bfsLoop adjList start.finalUrl 5
      { visited := [start.finalUrl], parent := [], depth := [(start.finalUrl, 0)] }
      [start.finalUrl]
    match out.conv with
    | none => none
    | some conv =>
      let steps :=
        (reconstruct out.fin.parent start.finalUrl (out.fin.visited.length + 1) conv).reverse
      let convScore : ℚ :=
        match byUrl conv with
        | some p => (p.score : ℚ)
        | none => 0
      let confRaw : ℚ :=
        (start.score : ℚ) * 2 + convScore +
          (if steps.length = 0 then 0 else 10 / (steps.length : ℚ))
      some
        { landing := start.finalUrl
          steps := steps
          conversion := conv
          confidence := roundJs (min 100 confRaw) }

/-- buildFunnels: the by-URL map and weighted adjacency over the
ad-like pages, one BFS per landing candidate, then dedupe by
landing/conversion pair after sorting by descending confidence. -/
def buildFunnels (adPages : List PageFinding) : List FunnelPath :=
  let byUrl := byUrlMap adPages
  let adjList := mkAdjList adPages byUrl
  let funnels := adPages.filterMap (funnelStep byUrl adjList)
  dedupeFunnels (sortFunnelsDesc funnels) []

/-- funnelLine is the report line the source prints for one funnel:
`- [confidence] landing -> step -> ...` over `[f.landing, ...f.steps]`
(the conversion node is the last element of f.steps). -/
def funnelLine (f : FunnelPath) : String :=
  "- [" ++ toString f.confidence ++ "] " ++
    String.intercalate " -> " (f.landing :: f.steps)

/-- pageLine is the report line for one ad-like page. -/
def pageLine (p : PageFinding) : String :=
  "- (" ++ toString p.score ++ ") " ++ p.finalUrl

/-- formatOutputText builds the one copy/paste report: header, funnel
section (with its `(none found)` placeholder), ad-like page section
(with its `(none)` placeholder), joined by newlines. -/
def formatOutputText (baseUrl : String) (adLikePages : List PageFinding)
    (funnels : List FunnelPath) : String :=
  String.intercalate "\n"
    (["# Funnel Finder Output", "Base: " ++ baseUrl, "",
      "## Funnels (landing -> ... -> conversion)"] ++
     (if funnels.isEmpty then ["(none found)"] else funnels.map funnelLine) ++
     ["", "## Ad-like Pages (best candidates for ads)"] ++
     (if adLikePages.isEmpty then ["(none)"] else adLikePages.map pageLine))

/-- insertPage inserts into a descending-score sorted list after
entries of equal score; sortPagesByScoreDesc is the stable descending
sort of `checked.sort((a, b) => b.score - a.score)`. -/
def insertPage (p : PageFinding) : List PageFinding → List PageFinding
  | [] => [p]
  | q :: rest =>
    if q.score ≤ p.score then p :: q :: rest
    else q :: insertPage p rest

/-- sortPagesByScoreDesc: stable sort, descending by score. -/
def sortPagesByScoreDesc : List PageFinding → List PageFinding
  | [] => []
  | p :: rest => insertPage p (sortPagesByScoreDesc rest)

/-- runFunnelTail is the pure tail of runFunnelFinder (steps 5 to 7):
sort the checked findings by score, keep those at or above the ad-like
threshold 18 capped at 250, build the funnels from that subset, and
format the combined report.  The network-dependent stages 1 to 4
deliver the `checked` argument. -/
def runFunnelTail (baseUrl : String) (checked : List PageFinding) :
    List PageFinding × List FunnelPath × String :=
  let valid := sortPagesByScoreDesc checked
  let adLikePages := (valid.filter fun p => decide (18 ≤ p.score)).take 250
  let funnels := buildFunnels adLikePages
  let outputText := formatOutputText baseUrl adLikePages funnels
  (adLikePages, funnels, outputText)

/-- specConfidenceClaim is the confidence formula exactly as the claim
words it (modelled from the spec, for comparison with the code):
`min(100, round(2*landingScore + conversionScore + (10/stepCount if
stepCount>0 else 10)))` where stepCount counts the intermediate steps
between landing and conversion. -/
def specConfidenceClaim (landingScore conversionScore stepCount : Nat) : Int :=
  min 100
    (roundJs ((2 * landingScore : ℚ) + (conversionScore : ℚ) +
      (if 0 < stepCount then (10 : ℚ) / (stepCount : ℚ) else 10)))

/-- BfsChain is the search-tree invariant of the funnel BFS: every
visited node other than the start satisfies the node predicate P and
has a parent pointer to an earlier visited node exactly one depth
level below it. -/
def BfsChain (P : String → Prop) (start : String) (st : BfsSt) : Prop :=
  ∀ x ∈ st.visited, x ≠ start →
    P x ∧ ∃ p, alookup st.parent x = some p ∧ p ∈ st.visited ∧
      (alookup st.depth x).getD 0 = (alookup st.depth p).getD 0 + 1

/-- cexLanding is a concrete landing page used to evaluate the model:
it links to cexStep only. -/
def cexLanding : PageFinding :=
  { url := "https://h.example/lp"
    finalUrl := "https://h.example/lp"
    status := 200
    score := 20
    reasons := []
    title := none
    ctaLinks := ["https://h.example/step"]
    allOutLinks := ["https://h.example/step"] }

/-- cexStep is a concrete intermediate page linking to the conversion
page. -/
def cexStep : PageFinding :=
  { url := "https://h.example/step"
    finalUrl := "https://h.example/step"
    status := 200
    score := 20
    reasons := []
    title := none
    ctaLinks := ["https://h.example/checkout"]
    allOutLinks := ["https://h.example/checkout"] }

/-- cexCheckout is a concrete conversion page (its path matches the
conversion heuristic). -/
def cexCheckout : PageFinding :=
  { url := "https://h.example/checkout"
    finalUrl := "https://h.example/checkout"
    status := 200
    score := 20
    reasons := []
    title := none
    ctaLinks := []
    allOutLinks := [] }

/-- cexPages is the three-page ad-like set landing -> step ->
checkout. -/
def cexPages : List PageFinding :=
  [cexLanding, cexStep, cexCheckout]

/-- cexFunnelStep is the funnel the builder returns for the landing
candidate cexStep: one direct edge to the conversion. -/
def cexFunnelStep : FunnelPath :=
  { landing := "https://h.example/step"
    steps := ["https://h.example/checkout"]
    conversion := "https://h.example/checkout"
    confidence := 70 }

/-- cexFunnelLp is the funnel the builder returns for the landing
candidate cexLanding: one intermediate step, then the conversion. -/
def cexFunnelLp : FunnelPath :=
  { landing := "https://h.example/lp"
    steps := ["https://h.example/step", "https://h.example/checkout"]
    conversion := "https://h.example/checkout"
    confidence := 65 }

/-- cexAdj is the adjacency the builder derives from cexPages. -/
def cexAdj : List (String × List String) :=
  [("https://h.example/checkout", []),
   ("https://h.example/step", ["https://h.example/checkout"]),
   ("https://h.example/lp", ["https://h.example/step"])]

/-- cexUrlX is a parsed same-origin candidate URL with path /x. -/
def cexUrlX : Url :=
  { scheme := "https", host := "a.com", path := "/x", query := [], fragment := none }

/-- cexBase is a parsed base URL of origin https://a.com. -/
def cexBase : Url :=
  { scheme := "https", host := "a.com", path := "/", query := [], fragment := none }

/-- cexAdmin is a parsed same-origin candidate whose path starts with
the /admin disallow prefix. -/
def cexAdmin : Url :=
  { scheme := "https", host := "a.com", path := "/admin/x", query := [], fragment := none }

/-- cexRules disallows the /admin prefix. -/
def cexRules : RobotsRules :=
  { sitemaps := [], disallow := ["/admin"] }

/-- ruleEmptyDis records one empty disallow entry. -/
def ruleEmptyDis : RobotsRules :=
  { sitemaps := [], disallow := [""] }

/-- cexFetchSm is a one-document sitemap oracle: every fetch succeeds
with one page URL and no children. -/
def cexFetchSm : String → Option SmParsed :=
  fun _ => some { urls := ["https://h.example/a"], childSitemaps := [] }

/-- cexQueryUrl is the parse of a URL carrying two tracking parameters
interleaved with two ordinary ones. -/
def cexQueryUrl : Url :=
  { scheme := "https"
    host := "a.com"
    path := "/p"
    query := [("utm_source", "x"), ("a", "1"), ("fbclid", "y"), ("b", "2")]
    fragment := none }

/-- A string is its character list repackaged. -/
theorem string_mk_data (s : String) : String.mk s.data = s := by
  cases s
  rfl

/-- splitFirst on a list not containing the separator returns the whole
list and no remainder. -/
theorem splitFirst_of_not_mem (c : Char) (l : List Char) (h : c ∉ l) :
    splitFirst c l = (l, none) := by
  induction l with
  | nil => rfl
  | cons x xs ih =>
    have hx : ¬ x = c := fun he => h (he ▸ List.mem_cons_self x xs)
    have hxs : c ∉ xs := fun hm => h (List.mem_cons_of_mem x hm)
    simp [splitFirst, hx, ih hxs]

/-- splitFirst cuts exactly at the first occurrence of the separator. -/
theorem splitFirst_append (c : Char) (l₁ l₂ : List Char) (h : c ∉ l₁) :
    splitFirst c (l₁ ++ c :: l₂) = (l₁, some l₂) := by
  induction l₁ with
  | nil => simp [splitFirst]
  | cons x xs ih =>
    have hx : ¬ x = c := fun he => h (he ▸ List.mem_cons_self x xs)
    have hxs : c ∉ xs := fun hm => h (List.mem_cons_of_mem x hm)
    simp [splitFirst, hx, ih hxs]

/-- The separator never occurs in the part before the cut. -/
theorem splitFirst_fst_not_mem (c : Char) (l : List Char) :
    c ∉ (splitFirst c l).1 := by
  induction l with
  | nil => simp [splitFirst]
  | cons x xs ih =>
    by_cases hx : x = c
    · simp [splitFirst, hx]
    · simp [splitFirst, hx]
      exact ⟨fun he => hx he.symm, ih⟩

/-- Characters of the part before the cut come from the input. -/
theorem splitFirst_fst_subset (c x : Char) (l : List Char)
    (h : x ∈ (splitFirst c l).1) : x ∈ l := by
  induction l with
  | nil => simp [splitFirst] at h
  | cons y ys ih =>
    by_cases hy : y = c
    · simp [splitFirst, hy] at h
    · simp [splitFirst, hy] at h
      rcases h with h | h
      · exact h ▸ List.mem_cons_self y ys
      · exact List.mem_cons_of_mem y (ih h)

/-- Characters of the part after the cut come from the input. -/
theorem splitFirst_snd_subset (c x : Char) (l r : List Char)
    (hr : (splitFirst c l).2 = some r) (h : x ∈ r) : x ∈ l := by
  induction l with
  | nil => simp [splitFirst] at hr
  | cons y ys ih =>
    by_cases hy : y = c
    · simp [splitFirst, hy] at hr
      exact List.mem_cons_of_mem y (hr ▸ h)
    · simp [splitFirst, hy] at hr
      exact List.mem_cons_of_mem y (ih hr)

/-- splitAllAux on a separator-free list yields one segment. -/
theorem splitAllAux_of_not_mem (c : Char) (l acc : List Char) (h : c ∉ l) :
    splitAllAux c l acc = [acc.reverse ++ l] := by
  induction l generalizing acc with
  | nil => simp [splitAllAux]
  | cons x xs ih =>
    have hx : ¬ x = c := fun he => h (he ▸ List.mem_cons_self x xs)
    have hxs : c ∉ xs := fun hm => h (List.mem_cons_of_mem x hm)
    simp [splitAllAux, hx, ih (x :: acc) hxs]

/-- splitAllAux emits the accumulator plus the prefix at the first
separator and continues on the remainder. -/
theorem splitAllAux_append (c : Char) (l₁ l₂ acc : List Char) (h : c ∉ l₁) :
    splitAllAux c (l₁ ++ c :: l₂) acc = (acc.reverse ++ l₁) :: splitAll c l₂ := by
  induction l₁ generalizing acc with
  | nil => simp [splitAllAux, splitAll]
  | cons x xs ih =>
    have hx : ¬ x = c := fun he => h (he ▸ List.mem_cons_self x xs)
    have hxs : c ∉ xs := fun hm => h (List.mem_cons_of_mem x hm)
    simp only [List.cons_append, splitAllAux, if_neg hx, List.append_eq]
    rw [ih (x :: acc) hxs]
    simp

/-- splitAll undoes joinSep on nonempty separator-free segments. -/
theorem splitAll_joinSep (c : Char) (segs : List (List Char)) (hne : segs ≠ [])
    (hfree : ∀ s ∈ segs, c ∉ s) :
    splitAll c (joinSep [c] segs) = segs := by
  induction segs with
  | nil => exact absurd rfl hne
  | cons x rest ih =>
    match rest with
    | [] =>
      have hx : c ∉ x := hfree x (List.mem_cons_self x [])
      simp [joinSep, splitAll, splitAllAux_of_not_mem c x [] hx]
    | y :: rest' =>
      have hx : c ∉ x := hfree x (List.mem_cons_self x _)
      have hrest : ∀ s ∈ y :: rest', c ∉ s := fun s hs =>
        hfree s (List.mem_cons_of_mem x hs)
      have hj : joinSep [c] (x :: y :: rest') = x ++ c :: joinSep [c] (y :: rest') := by
        simp [joinSep]
      rw [hj]
      show splitAllAux c (x ++ c :: joinSep [c] (y :: rest')) [] = x :: y :: rest'
      rw [splitAllAux_append c x _ [] hx]
      have hrec := ih (by simp) hrest
      simp only [List.reverse_nil, List.nil_append]
      exact congrArg (fun t => x :: t) hrec

/-- Every character of a joinSep result is a separator character or a
character of one of the parts. -/
theorem mem_joinSep (sep : List Char) (parts : List (List Char)) (x : Char)
    (h : x ∈ joinSep sep parts) : x ∈ sep ∨ ∃ p ∈ parts, x ∈ p := by
  induction parts with
  | nil => simp [joinSep] at h
  | cons a rest ih =>
    match rest with
    | [] =>
      simp [joinSep] at h
      exact Or.inr ⟨a, by simp, h⟩
    | b :: rest' =>
      simp [joinSep] at h
      rcases h with h | h | h
      · exact Or.inr ⟨a, by simp, h⟩
      · exact Or.inl h
      · rcases ih h with h' | ⟨p, hp, hx⟩
        · exact Or.inl h'
        · exact Or.inr ⟨p, List.mem_cons_of_mem a hp, hx⟩

/-- Segments produced by splitAll are separator-free and their
characters come from the input. -/
theorem splitAllAux_mem (c : Char) (l : List Char) :
    ∀ acc, c ∉ acc → ∀ seg ∈ splitAllAux c l acc, c ∉ seg ∧ ∀ x ∈ seg, x ∈ l ∨ x ∈ acc := by
  induction l with
  | nil =>
    intro acc hacc seg hseg
    simp [splitAllAux] at hseg
    subst hseg
    constructor
    · simpa using hacc
    · intro x hx
      exact Or.inr (by simpa using hx)
  | cons y ys ih =>
    intro acc hacc seg hseg
    by_cases hy : y = c
    · subst hy
      simp [splitAllAux] at hseg
      rcases hseg with hseg | hseg
      · subst hseg
        refine ⟨by simpa using hacc, ?_⟩
        intro x hx
        exact Or.inr (by simpa using hx)
      · have := ih [] (by simp) seg hseg
        refine ⟨this.1, ?_⟩
        intro x hx
        rcases this.2 x hx with h | h
        · exact Or.inl (List.mem_cons_of_mem y h)
        · simp at h
    · simp [splitAllAux, hy] at hseg
      have hacc' : c ∉ y :: acc := by
        intro hm
        rcases List.mem_cons.1 hm with he | hm'
        · exact hy he.symm
        · exact hacc hm'
      have := ih (y :: acc) hacc' seg hseg
      refine ⟨this.1, ?_⟩
      intro x hx
      rcases this.2 x hx with h | h
      · exact Or.inl (List.mem_cons_of_mem y h)
      · rcases List.mem_cons.1 h with he | hm'
        · exact Or.inl (he ▸ List.mem_cons_self y ys)
        · exact Or.inr hm'

/-- querySeg inverted: a produced pair is the split of a nonempty
segment. -/
theorem querySeg_some (seg : List Char) (p : String × String)
    (h : querySeg seg = some p) :
    p.1.data = (splitFirst '=' seg).1 ∧ p.2.data = (splitFirst '=' seg).2.getD [] := by
  cases seg with
  | nil => simp [querySeg] at h
  | cons s0 ss =>
    have h' := Option.some.inj h
    rw [← h']
    exact ⟨rfl, rfl⟩

/-- querySeg on a nonempty segment splits it at the first equals. -/
theorem querySeg_cons (s0 : Char) (ss : List Char) :
    querySeg (s0 :: ss) =
      some (String.mk (splitFirst '=' (s0 :: ss)).1,
            String.mk ((splitFirst '=' (s0 :: ss)).2.getD [])) := rfl

/-- querySeg on an explicit key/value segment with an equals-free key. -/
theorem querySeg_append (k v : List Char) (hk : '=' ∉ k) :
    querySeg (k ++ '=' :: v) = some (String.mk k, String.mk v) := by
  have hsp := splitFirst_append '=' k v hk
  cases hm : k ++ '=' :: v with
  | nil => exact absurd hm (by simp)
  | cons s0 ss =>
    rw [querySeg_cons, ← hm, hsp]
    rfl

/-- Every parseQuery pair has an ampersand-free, equals-free key and an
ampersand-free value, with all characters drawn from the query text. -/
theorem parseQuery_mem (qs : List Char) (p : String × String)
    (h : p ∈ parseQuery qs) :
    ('&' ∉ p.1.data ∧ '=' ∉ p.1.data ∧ ∀ x ∈ p.1.data, x ∈ qs) ∧
    ('&' ∉ p.2.data ∧ ∀ x ∈ p.2.data, x ∈ qs) := by
  rcases List.mem_filterMap.1 h with ⟨seg, hseg, hp⟩
  have hseg' := splitAllAux_mem '&' qs [] (by simp) seg hseg
  have hmem : ∀ x ∈ seg, x ∈ qs := by
    intro x hx
    rcases hseg'.2 x hx with h' | h'
    · exact h'
    · simp at h'
  rcases querySeg_some seg p hp with ⟨hkey, hval⟩
  constructor
  · refine ⟨?_, ?_, ?_⟩
    · rw [hkey]
      intro hx
      exact hseg'.1 (splitFirst_fst_subset '=' '&' seg hx)
    · rw [hkey]
      exact splitFirst_fst_not_mem '=' seg
    · intro x hx
      rw [hkey] at hx
      exact hmem x (splitFirst_fst_subset '=' x seg hx)
  · constructor
    · rw [hval]
      cases hs2 : (splitFirst '=' seg).2 with
      | none => simp
      | some r =>
        simp only [Option.getD_some]
        intro hx
        exact hseg'.1 (splitFirst_snd_subset '=' '&' seg r hs2 hx)
    · intro x hx
      rw [hval] at hx
      cases hs2 : (splitFirst '=' seg).2 with
      | none => simp [hs2] at hx
      | some r =>
        rw [hs2] at hx
        simp only [Option.getD_some] at hx
        exact hmem x (splitFirst_snd_subset '=' x seg r hs2 hx)

/-- Serialized pair lists with equals-free keys survive filterMap by
querySeg unchanged. -/
theorem filterMap_querySeg (q : List (String × String))
    (hk : ∀ p ∈ q, '=' ∉ p.1.data) :
    q.filterMap (fun p => querySeg (p.1.data ++ '=' :: p.2.data)) = q := by
  induction q with
  | nil => rfl
  | cons p rest ih =>
    have h1 := querySeg_append p.1.data p.2.data (hk p (List.mem_cons_self p rest))
    have ihr := ih (fun r hr => hk r (List.mem_cons_of_mem _ hr))
    simp [List.filterMap_cons, h1, string_mk_data, ihr]

/-- parseQuery is a left inverse of serializeQuery on pair lists whose
keys are ampersand- and equals-free and whose values are
ampersand-free. -/
theorem parseQuery_serializeQuery (q : List (String × String))
    (hk : ∀ p ∈ q, '&' ∉ p.1.data ∧ '=' ∉ p.1.data)
    (hv : ∀ p ∈ q, '&' ∉ p.2.data) :
    parseQuery (serializeQuery q) = q := by
  cases q with
  | nil => decide
  | cons p0 q' =>
    have hne : (p0 :: q').map (fun p => p.1.data ++ '=' :: p.2.data) ≠ [] := by simp
    have hfree : ∀ s ∈ (p0 :: q').map (fun p => p.1.data ++ '=' :: p.2.data), '&' ∉ s := by
      intro s hs
      rcases List.mem_map.1 hs with ⟨p, hp, rfl⟩
      intro hx
      rcases List.mem_append.1 hx with h | h
      · exact (hk p hp).1 h
      · rcases List.mem_cons.1 h with he | h
        · exact absurd he (by decide)
        · exact hv p hp h
    unfold parseQuery serializeQuery
    rw [splitAll_joinSep '&' _ hne hfree, List.filterMap_map]
    have := filterMap_querySeg (p0 :: q') (fun p hp => (hk p hp).2)
    simpa [Function.comp] using this

/-- qchars is the query part of the URL serializer at character level. -/
def qchars (u : Url) : List Char :=
  match u.query with
  | [] => []
  | _ => '?' :: serializeQuery u.query

/-- fchars is the fragment part of the URL serializer at character
level. -/
def fchars (u : Url) : List Char :=
  match u.fragment with
  | none => []
  | some fr => '#' :: fr.data

/-- The serialized URL at character level, right associated. -/
theorem toStr_data (u : Url) :
    (u.toStr).data =
      u.scheme.data ++ ':' :: '/' :: '/' ::
        (u.host.data ++ (u.path.data ++ (qchars u ++ fchars u))) := by
  unfold Url.toStr qchars fchars
  cases hq : u.query <;> cases hf : u.fragment <;>
    simp [String.data_append, string_mk_data]

/-- stripScheme only ever returns the two literal schemes. -/
theorem stripScheme_some (l : List Char) (sch : String) (rest : List Char)
    (h : stripScheme l = some (sch, rest)) : sch = "http" ∨ sch = "https" := by
  unfold stripScheme at h
  split at h
  · injection h with h1
    injection h1 with h2 h3
    exact Or.inr h2.symm
  · injection h with h1
    injection h1 with h2 h3
    exact Or.inl h2.symm
  · exact absurd h (by simp)

/-- Characters of a serialized query are separators, equal signs, or
characters of some key or value. -/
theorem mem_serializeQuery (q : List (String × String)) (x : Char)
    (h : x ∈ serializeQuery q) :
    x = '&' ∨ x = '=' ∨ ∃ p ∈ q, x ∈ p.1.data ∨ x ∈ p.2.data := by
  unfold serializeQuery at h
  rcases mem_joinSep _ _ _ h with h | ⟨part, hp, hx⟩
  · left
    simpa using h
  · rcases List.mem_map.1 hp with ⟨p, hp2, rfl⟩
    rcases List.mem_append.1 hx with h | h
    · exact Or.inr (Or.inr ⟨p, hp2, Or.inl h⟩)
    · rcases List.mem_cons.1 h with he | h
      · exact Or.inr (Or.inl he)
      · exact Or.inr (Or.inr ⟨p, hp2, Or.inr h⟩)

/-- parseUrl inverted: the components of a successfully parsed URL are
the successive splits of the input. -/
theorem parseUrl_some_eq (s : String) (u : Url) (h : parseUrl s = some u) :
    ∃ sch rest,
      stripScheme s.data = some (sch, rest) ∧
      u.scheme = sch ∧
      u.host.data = (splitFirst '/' (splitFirst '?' (splitFirst '#' rest).1).1).1 ∧
      u.host.data ≠ [] ∧
      u.path.data =
        '/' :: ((splitFirst '/' (splitFirst '?' (splitFirst '#' rest).1).1).2.getD []) ∧
      u.query = parseQuery ((splitFirst '?' (splitFirst '#' rest).1).2.getD []) ∧
      u.fragment = (splitFirst '#' rest).2.map String.mk := by
  unfold parseUrl at h
  cases hs : stripScheme s.data with
  | none =>
    rw [hs] at h
    exact absurd h (by simp)
  | some pr =>
    obtain ⟨sch, rest⟩ := pr
    rw [hs] at h
    simp only [] at h
    split at h
    · exact absurd h (by simp)
    · rename_i hne
      have hu := Option.some.inj h
      subst hu
      exact ⟨sch, rest, rfl, rfl, rfl, hne, rfl, rfl, rfl⟩

/-- Every URL value produced by parseUrl is well formed. -/
theorem parseUrl_WF (s : String) (u : Url) (h : parseUrl s = some u) : u.WF := by
  obtain ⟨sch, rest, hs, hsch, hhost, hne, hpath, hquery, hfrag⟩ := parseUrl_some_eq s u h
  have hf1 : '#' ∉ (splitFirst '#' rest).1 := splitFirst_fst_not_mem '#' rest
  have hq1a : '?' ∉ (splitFirst '?' (splitFirst '#' rest).1).1 :=
    splitFirst_fst_not_mem '?' _
  have hq1b : '#' ∉ (splitFirst '?' (splitFirst '#' rest).1).1 := by
    intro hm
    exact hf1 (splitFirst_fst_subset '?' '#' _ hm)
  refine ⟨?_, ?_, ?_, ?_, ?_, ?_⟩
  · rw [hsch]
    exact stripScheme_some s.data sch rest hs
  · exact hne
  · intro ch hch
    rw [hhost] at hch
    refine ⟨?_, ?_, ?_⟩
    · intro he
      subst he
      exact splitFirst_fst_not_mem '/' _ hch
    · intro he
      subst he
      exact hq1a (splitFirst_fst_subset '/' '?' _ hch)
    · intro he
      subst he
      exact hq1b (splitFirst_fst_subset '/' '#' _ hch)
  · exact ⟨_, hpath⟩
  · intro ch hch
    rw [hpath] at hch
    rcases List.mem_cons.1 hch with he | hch'
    · subst he
      exact ⟨by decide, by decide⟩
    · cases h2 : (splitFirst '/' (splitFirst '?' (splitFirst '#' rest).1).1).2 with
      | none =>
        rw [h2] at hch'
        simp at hch'
      | some r =>
        rw [h2] at hch'
        simp only [Option.getD_some] at hch'
        have hin : ch ∈ (splitFirst '?' (splitFirst '#' rest).1).1 :=
          splitFirst_snd_subset '/' ch _ r h2 hch'
        refine ⟨?_, ?_⟩
        · intro he
          subst he
          exact hq1a hin
        · intro he
          subst he
          exact hq1b hin
  · intro p hp
    rw [hquery] at hp
    cases h2 : (splitFirst '?' (splitFirst '#' rest).1).2 with
    | none =>
      rw [h2] at hp
      simp only [Option.getD_none] at hp
      have : parseQuery [] = [] := rfl
      rw [this] at hp
      simp at hp
    | some qs =>
      rw [h2] at hp
      simp only [Option.getD_some] at hp
      have hqs : ∀ x ∈ qs, x ∈ (splitFirst '#' rest).1 :=
        fun x hx => splitFirst_snd_subset '?' x _ qs h2 hx
      have hm := parseQuery_mem qs p hp
      refine ⟨?_, ?_⟩
      · intro ch hch
        refine ⟨?_, ?_, ?_⟩
        · intro he
          subst he
          exact hm.1.1 hch
        · intro he
          subst he
          exact hm.1.2.1 hch
        · intro he
          subst he
          exact hf1 (hqs '#' (hm.1.2.2 '#' hch))
      · intro ch hch
        refine ⟨?_, ?_⟩
        · intro he
          subst he
          exact hm.2.1 hch
        · intro he
          subst he
          exact hf1 (hqs '#' (hm.2.2 '#' hch))

/-- parseUrl after a successful scheme strip is the three-way split of
the remaining characters. -/
theorem parseUrl_after (s : String) (sch : String) (core : List Char)
    (hstrip : stripScheme s.data = some (sch, core)) :
    parseUrl s =
      (if (splitFirst '/' (splitFirst '?' (splitFirst '#' core).1).1).1 = [] then none
       else some
         { scheme := sch
           host := String.mk (splitFirst '/' (splitFirst '?' (splitFirst '#' core).1).1).1
           path :=
             String.mk
               ('/' :: (splitFirst '/' (splitFirst '?' (splitFirst '#' core).1).1).2.getD [])
           query := parseQuery ((splitFirst '?' (splitFirst '#' core).1).2.getD [])
           fragment := (splitFirst '#' core).2.map String.mk }) := by
  unfold parseUrl
  rw [hstrip]

/-- The serializer is a right inverse of the parser on well-formed URL
values: parsing the printed form of a well-formed URL value gives back
exactly that value. -/
theorem parseUrl_toStr (u : Url) (hwf : u.WF) : parseUrl u.toStr = some u := by
  obtain ⟨hsch, hhne, hhost, ⟨prest, hpath⟩, hpathch, hquery⟩ := hwf
  have hpath_hash : '#' ∉ u.path.data := fun hm => (hpathch '#' hm).2 rfl
  have hpath_qm : '?' ∉ u.path.data := fun hm => (hpathch '?' hm).1 rfl
  have hhost_hash : '#' ∉ u.host.data := fun hm => (hhost '#' hm).2.2 rfl
  have hhost_qm : '?' ∉ u.host.data := fun hm => (hhost '?' hm).2.1 rfl
  have hhost_sl : '/' ∉ u.host.data := fun hm => (hhost '/' hm).1 rfl
  have hq_hash : '#' ∉ serializeQuery u.query := by
    intro hm
    rcases mem_serializeQuery _ '#' hm with he | he | ⟨p, hp, hin⟩
    · exact absurd he (by decide)
    · exact absurd he (by decide)
    · rcases hin with hin | hin
      · exact ((hquery p hp).1 '#' hin).2.2 rfl
      · exact ((hquery p hp).2 '#' hin).2 rfl
  have hdata : (u.toStr).data =
      u.scheme.data ++ ':' :: '/' :: '/' ::
        (u.host.data ++ (u.path.data ++ (qchars u ++ fchars u))) := toStr_data u
  have hstrip : stripScheme (u.toStr).data =
      some (u.scheme, u.host.data ++ (u.path.data ++ (qchars u ++ fchars u))) := by
    rw [hdata]
    rcases hsch with h1 | h1 <;> rw [h1] <;> rfl
  rw [parseUrl_after u.toStr u.scheme _ hstrip]
  have hk' : ∀ p ∈ u.query, '&' ∉ p.1.data ∧ '=' ∉ p.1.data := by
    intro p hp
    constructor
    · intro hm
      exact ((hquery p hp).1 '&' hm).1 rfl
    · intro hm
      exact ((hquery p hp).1 '=' hm).2.1 rfl
  have hv' : ∀ p ∈ u.query, '&' ∉ p.2.data := by
    intro p hp hm
    exact ((hquery p hp).2 '&' hm).1 rfl
  cases hq : u.query with
  | nil =>
    have e0 : qchars u = [] := by
      unfold qchars
      rw [hq]
    rw [e0]
    have hfree1 : '#' ∉ u.host.data ++ (u.path.data ++ ([] ++ fchars u)) → True := fun _ => trivial
    cases hf : u.fragment with
    | none =>
      have e1 : fchars u = [] := by
        unfold fchars
        rw [hf]
      rw [e1]
      have hfree : '#' ∉ u.host.data ++ (u.path.data ++ ([] ++ [])) := by
        intro hm
        rcases List.mem_append.1 hm with h | h
        · exact hhost_hash h
        · rcases List.mem_append.1 h with h | h
          · exact hpath_hash h
          · simp at h
      rw [splitFirst_of_not_mem '#' _ hfree]
      have hfree2 : '?' ∉ u.host.data ++ (u.path.data ++ ([] ++ [])) := by
        intro hm
        rcases List.mem_append.1 hm with h | h
        · exact hhost_qm h
        · rcases List.mem_append.1 h with h | h
          · exact hpath_qm h
          · simp at h
      simp only []
      rw [splitFirst_of_not_mem '?' _ hfree2]
      simp only []
      have e2 : u.host.data ++ (u.path.data ++ ([] ++ [])) =
          u.host.data ++ '/' :: (prest ++ ([] ++ [])) := by
        rw [hpath]
        simp
      rw [e2, splitFirst_append '/' _ _ hhost_sl]
      simp only [Option.getD_some, Option.map_none']
      rw [if_neg (by simpa using hhne)]
      have e3 : '/' :: (prest ++ ([] ++ [])) = u.path.data := by
        rw [hpath]
        simp
      rw [e3]
      simp only [string_mk_data, Option.getD_none]
      have e4 : parseQuery [] = [] := rfl
      rw [e4, ← hq, ← hf]
    | some fr =>
      have e1 : fchars u = '#' :: fr.data := by
        unfold fchars
        rw [hf]
      rw [e1]
      have e1' : u.host.data ++ (u.path.data ++ ([] ++ '#' :: fr.data)) =
          (u.host.data ++ u.path.data) ++ '#' :: fr.data := by
        simp
      have hfree : '#' ∉ u.host.data ++ u.path.data := by
        intro hm
        rcases List.mem_append.1 hm with h | h
        · exact hhost_hash h
        · exact hpath_hash h
      rw [e1', splitFirst_append '#' _ _ hfree]
      have hfree2 : '?' ∉ u.host.data ++ u.path.data := by
        intro hm
        rcases List.mem_append.1 hm with h | h
        · exact hhost_qm h
        · exact hpath_qm h
      simp only []
      rw [splitFirst_of_not_mem '?' _ hfree2]
      simp only []
      have e2 : u.host.data ++ u.path.data = u.host.data ++ '/' :: prest := by
        rw [hpath]
      rw [e2, splitFirst_append '/' _ _ hhost_sl]
      simp only [Option.getD_some, Option.map_some']
      rw [if_neg (by simpa using hhne)]
      have e3 : '/' :: prest = u.path.data := hpath.symm
      rw [e3]
      simp only [string_mk_data, Option.getD_none]
      have e4 : parseQuery [] = [] := rfl
      rw [e4, ← hq, ← hf]
  | cons p0 q' =>
    have e0 : qchars u = '?' :: serializeQuery u.query := by
      unfold qchars
      rw [hq]
    rw [e0]
    cases hf : u.fragment with
    | none =>
      have e1 : fchars u = [] := by
        unfold fchars
        rw [hf]
      rw [e1]
      have e1' : u.host.data ++ (u.path.data ++ ('?' :: serializeQuery u.query ++ [])) =
          u.host.data ++ (u.path.data ++ '?' :: serializeQuery u.query) := by
        simp
      rw [e1']
      have hfree : '#' ∉ u.host.data ++ (u.path.data ++ '?' :: serializeQuery u.query) := by
        intro hm
        rcases List.mem_append.1 hm with h | h
        · exact hhost_hash h
        · rcases List.mem_append.1 h with h | h
          · exact hpath_hash h
          · rcases List.mem_cons.1 h with he | h'
            · exact absurd he (by decide)
            · exact hq_hash h'
      rw [splitFirst_of_not_mem '#' _ hfree]
      simp only []
      have e2 : u.host.data ++ (u.path.data ++ '?' :: serializeQuery u.query) =
          (u.host.data ++ u.path.data) ++ '?' :: serializeQuery u.query := by
        simp
      have hfree2 : '?' ∉ u.host.data ++ u.path.data := by
        intro hm
        rcases List.mem_append.1 hm with h | h
        · exact hhost_qm h
        · exact hpath_qm h
      rw [e2, splitFirst_append '?' _ _ hfree2]
      simp only []
      have e3 : u.host.data ++ u.path.data = u.host.data ++ '/' :: prest := by
        rw [hpath]
      rw [e3, splitFirst_append '/' _ _ hhost_sl]
      simp only [Option.getD_some, Option.map_none']
      rw [if_neg (by simpa using hhne)]
      rw [show '/' :: prest = u.path.data from hpath.symm]
      simp only [string_mk_data]
      rw [parseQuery_serializeQuery u.query hk' hv', ← hf]
    | some fr =>
      have e1 : fchars u = '#' :: fr.data := by
        unfold fchars
        rw [hf]
      rw [e1]
      have e1' :
          u.host.data ++ (u.path.data ++ ('?' :: serializeQuery u.query ++ '#' :: fr.data)) =
          (u.host.data ++ (u.path.data ++ '?' :: serializeQuery u.query)) ++ '#' :: fr.data := by
        simp
      rw [e1']
      have hfree : '#' ∉ u.host.data ++ (u.path.data ++ '?' :: serializeQuery u.query) := by
        intro hm
        rcases List.mem_append.1 hm with h | h
        · exact hhost_hash h
        · rcases List.mem_append.1 h with h | h
          · exact hpath_hash h
          · rcases List.mem_cons.1 h with he | h'
            · exact absurd he (by decide)
            · exact hq_hash h'
      rw [splitFirst_append '#' _ _ hfree]
      simp only []
      have e2 : u.host.data ++ (u.path.data ++ '?' :: serializeQuery u.query) =
          (u.host.data ++ u.path.data) ++ '?' :: serializeQuery u.query := by
        simp
      have hfree2 : '?' ∉ u.host.data ++ u.path.data := by
        intro hm
        rcases List.mem_append.1 hm with h | h
        · exact hhost_qm h
        · exact hpath_qm h
      rw [e2, splitFirst_append '?' _ _ hfree2]
      simp only []
      have e3 : u.host.data ++ u.path.data = u.host.data ++ '/' :: prest := by
        rw [hpath]
      rw [e3, splitFirst_append '/' _ _ hhost_sl]
      simp only [Option.getD_some, Option.map_some']
      rw [if_neg (by simpa using hhne)]
      rw [show '/' :: prest = u.path.data from hpath.symm]
      simp only [string_mk_data]
      rw [parseQuery_serializeQuery u.query hk' hv', ← hf]

/-- Filtering the query of a well-formed URL value keeps it well
formed. -/
theorem stripUtm_WF (u : Url) (hwf : u.WF) : (stripUtm u).WF := by
  obtain ⟨hsch, hhne, hhost, hpath, hpathch, hquery⟩ := hwf
  refine ⟨hsch, hhne, hhost, hpath, hpathch, ?_⟩
  intro p hp
  exact hquery p (List.mem_of_mem_filter hp)

/-- Elements surviving dedupAux come from the input list. -/
theorem dedupAux_subset (l : List String) :
    ∀ seen x, x ∈ dedupAux l seen → x ∈ l := by
  induction l with
  | nil =>
    intro seen x h
    simp [dedupAux] at h
  | cons a rest ih =>
    intro seen x h
    by_cases ha : a ∈ seen
    · rw [dedupAux, if_pos ha] at h
      exact List.mem_cons_of_mem a (ih seen x h)
    · rw [dedupAux, if_neg ha] at h
      rcases List.mem_cons.1 h with he | h'
      · exact he ▸ List.mem_cons_self a rest
      · exact List.mem_cons_of_mem a (ih (a :: seen) x h')

/-- Elements surviving dedupAux were not previously seen. -/
theorem dedupAux_not_seen (l : List String) :
    ∀ seen x, x ∈ dedupAux l seen → x ∉ seen := by
  induction l with
  | nil =>
    intro seen x h
    simp [dedupAux] at h
  | cons a rest ih =>
    intro seen x h
    by_cases ha : a ∈ seen
    · rw [dedupAux, if_pos ha] at h
      exact ih seen x h
    · rw [dedupAux, if_neg ha] at h
      rcases List.mem_cons.1 h with he | h'
      · exact he ▸ ha
      · intro hs
        exact ih (a :: seen) x h' (List.mem_cons_of_mem a hs)

/-- dedupAux yields a duplicate-free list. -/
theorem dedupAux_nodup (l : List String) : ∀ seen, (dedupAux l seen).Nodup := by
  induction l with
  | nil =>
    intro seen
    simp [dedupAux]
  | cons a rest ih =>
    intro seen
    by_cases ha : a ∈ seen
    · rw [dedupAux, if_pos ha]
      exact ih seen
    · rw [dedupAux, if_neg ha]
      refine List.nodup_cons.2 ⟨?_, ih (a :: seen)⟩
      intro hmem
      exact dedupAux_not_seen rest (a :: seen) a hmem (List.mem_cons_self a seen)

/-- dedupAux never grows the list. -/
theorem dedupAux_length (l : List String) :
    ∀ seen, (dedupAux l seen).length ≤ l.length := by
  induction l with
  | nil =>
    intro seen
    simp [dedupAux]
  | cons a rest ih =>
    intro seen
    by_cases ha : a ∈ seen
    · rw [dedupAux, if_pos ha]
      exact Nat.le_succ_of_le (ih seen)
    · rw [dedupAux, if_neg ha]
      simpa using Nat.succ_le_succ (ih (a :: seen))

/-- dedupKeepFirst yields a duplicate-free list. -/
theorem dedupKeepFirst_nodup (l : List String) : (dedupKeepFirst l).Nodup :=
  dedupAux_nodup l []

/-- dedupKeepFirst never grows the list. -/
theorem dedupKeepFirst_length (l : List String) :
    (dedupKeepFirst l).length ≤ l.length :=
  dedupAux_length l []

/-- A successful alookup is list membership. -/
theorem alookup_mem {β : Type} (l : List (String × β)) (k : String) (v : β)
    (h : alookup l k = some v) : (k, v) ∈ l := by
  induction l with
  | nil => simp [alookup] at h
  | cons p rest ih =>
    by_cases hk : k = p.1
    · rw [alookup, if_pos hk] at h
      have hv := Option.some.inj h
      subst hk
      subst hv
      exact List.mem_cons_self _ _
    · rw [alookup, if_neg hk] at h
      exact List.mem_cons_of_mem p (ih h)

/-- alookup skips a freshly prepended entry with a different key. -/
theorem alookup_cons_ne {β : Type} (l : List (String × β)) (k k' : String) (v : β)
    (h : k' ≠ k) : alookup ((k, v) :: l) k' = alookup l k' := by
  rw [alookup, if_neg h]

/-- A byUrlMap hit is a page of the list keyed by its finalUrl. -/
theorem byUrlMap_some (adPages : List PageFinding) (k : String) (p : PageFinding)
    (h : byUrlMap adPages k = some p) : p ∈ adPages ∧ p.finalUrl = k := by
  have main : ∀ (l : List PageFinding) (m : String → Option PageFinding),
      (l.foldl (fun m p => fun k => if k = p.finalUrl then some p else m k) m) k = some p →
      (p ∈ l ∧ p.finalUrl = k) ∨ m k = some p := by
    intro l
    induction l with
    | nil =>
      intro m h
      exact Or.inr h
    | cons q rest ih =>
      intro m h
      rw [List.foldl_cons] at h
      rcases ih _ h with ⟨hp, hk⟩ | hm
      · exact Or.inl ⟨List.mem_cons_of_mem q hp, hk⟩
      · by_cases hk : k = q.finalUrl
        · rw [if_pos hk] at hm
          have := Option.some.inj hm
          subst this
          exact Or.inl ⟨List.mem_cons_self q rest, hk.symm⟩
        · rw [if_neg hk] at hm
          exact Or.inr hm
  rcases main adPages _ h with hgood | hbad
  · exact hgood
  · simp at hbad

/-- Every adjacency row belongs to a page of the ad-like set. -/
theorem mkAdjList_mem (adPages : List PageFinding) (byUrl : String → Option PageFinding)
    (kv : String × List String) (h : kv ∈ mkAdjList adPages byUrl) :
    ∃ p ∈ adPages, kv = (p.finalUrl, edgesOf byUrl p) := by
  have main : ∀ (l : List PageFinding) (acc : List (String × List String)),
      kv ∈ l.foldl (fun m p => (p.finalUrl, edgesOf byUrl p) :: m) acc →
      (∃ p ∈ l, kv = (p.finalUrl, edgesOf byUrl p)) ∨ kv ∈ acc := by
    intro l
    induction l with
    | nil =>
      intro acc h
      exact Or.inr h
    | cons q rest ih =>
      intro acc h
      rw [List.foldl_cons] at h
      rcases ih _ h with ⟨p, hp, he⟩ | hacc
      · exact Or.inl ⟨p, List.mem_cons_of_mem q hp, he⟩
      · rcases List.mem_cons.1 hacc with he | h'
        · exact Or.inl ⟨q, List.mem_cons_self q rest, he⟩
        · exact Or.inr h'
  rcases main adPages [] h with hgood | hbad
  · exact hgood
  · simp at hbad

/-- Every edge target of an adjacency row hits the by-URL map. -/
theorem edgesOf_isSome (byUrl : String → Option PageFinding) (p : PageFinding) :
    ∀ v ∈ edgesOf byUrl p, (byUrl v).isSome := by
  intro v hv
  unfold edgesOf at hv
  rcases List.mem_append.1 hv with h | h
  · exact (List.mem_filter.1 h).2
  · have hb := (List.mem_filter.1 h).2
    rw [Bool.and_eq_true] at hb
    exact hb.1

/-- insertFunnel membership. -/
theorem insertFunnel_mem (f g : FunnelPath) (l : List FunnelPath)
    (h : g ∈ insertFunnel f l) : g = f ∨ g ∈ l := by
  induction l with
  | nil =>
    simp [insertFunnel] at h
    exact Or.inl h
  | cons x rest ih =>
    rw [insertFunnel] at h
    by_cases hc : x.confidence ≤ f.confidence
    · rw [if_pos hc] at h
      rcases List.mem_cons.1 h with he | h'
      · exact Or.inl he
      · exact Or.inr h'
    · rw [if_neg hc] at h
      rcases List.mem_cons.1 h with he | h'
      · exact Or.inr (he ▸ List.mem_cons_self x rest)
      · rcases ih h' with he | hm
        · exact Or.inl he
        · exact Or.inr (List.mem_cons_of_mem x hm)

/-- Sorting by confidence preserves the element set. -/
theorem sortFunnelsDesc_subset (l : List FunnelPath) :
    ∀ f ∈ sortFunnelsDesc l, f ∈ l := by
  induction l with
  | nil =>
    intro f h
    simp [sortFunnelsDesc] at h
  | cons x rest ih =>
    intro f h
    rw [sortFunnelsDesc] at h
    rcases insertFunnel_mem x f _ h with he | hm
    · exact he ▸ List.mem_cons_self x rest
    · exact List.mem_cons_of_mem x (ih f hm)

/-- Deduplication by landing/conversion key preserves membership. -/
theorem dedupeFunnels_subset (l : List FunnelPath) :
    ∀ seen f, f ∈ dedupeFunnels l seen → f ∈ l := by
  induction l with
  | nil =>
    intro seen f h
    simp [dedupeFunnels] at h
  | cons x rest ih =>
    intro seen f h
    rw [dedupeFunnels] at h
    by_cases hk : x.landing ++ "→" ++ x.conversion ∈ seen
    · rw [if_pos hk] at h
      exact List.mem_cons_of_mem x (ih seen f h)
    · rw [if_neg hk] at h
      rcases List.mem_cons.1 h with he | h'
      · exact he ▸ List.mem_cons_self x rest
      · exact List.mem_cons_of_mem x (ih _ f h')

/-- insertPage membership. -/
theorem insertPage_mem (p q : PageFinding) (l : List PageFinding)
    (h : q ∈ insertPage p l) : q = p ∨ q ∈ l := by
  induction l with
  | nil =>
    simp [insertPage] at h
    exact Or.inl h
  | cons x rest ih =>
    rw [insertPage] at h
    by_cases hc : x.score ≤ p.score
    · rw [if_pos hc] at h
      rcases List.mem_cons.1 h with he | h'
      · exact Or.inl he
      · exact Or.inr h'
    · rw [if_neg hc] at h
      rcases List.mem_cons.1 h with he | h'
      · exact Or.inr (he ▸ List.mem_cons_self x rest)
      · rcases ih h' with he | hm
        · exact Or.inl he
        · exact Or.inr (List.mem_cons_of_mem x hm)

/-- Sorting by score preserves the element set. -/
theorem sortPagesByScoreDesc_subset (l : List PageFinding) :
    ∀ p ∈ sortPagesByScoreDesc l, p ∈ l := by
  induction l with
  | nil =>
    intro p h
    simp [sortPagesByScoreDesc] at h
  | cons x rest ih =>
    intro p h
    rw [sortPagesByScoreDesc] at h
    rcases insertPage_mem x p _ h with he | hm
    · exact he ▸ List.mem_cons_self x rest
    · exact List.mem_cons_of_mem x (ih p hm)

/-- Expanding the neighbours of a visited node preserves the BFS
search-tree invariant; the state only grows and every new queue entry
is visited. -/
theorem expandBfs_spec (P : String → Prop) (start cur : String) (d : Nat) :
    ∀ (links : List String) (st : BfsSt),
      start ∈ st.visited →
      cur ∈ st.visited →
      (∀ x ∈ links, P x) →
      BfsChain P start st →
      (alookup st.depth cur).getD 0 = d →
      (start ∈ (expandBfs cur d links st).1.visited ∧
       (∀ x ∈ st.visited, x ∈ (expandBfs cur d links st).1.visited) ∧
       (∀ x ∈ (expandBfs cur d links st).2, x ∈ (expandBfs cur d links st).1.visited) ∧
       BfsChain P start (expandBfs cur d links st).1) := by
  intro links
  induction links with
  | nil =>
    intro st h1 _h2 _h3 h4 _h5
    exact ⟨h1, fun x hx => hx, by simp [expandBfs], h4⟩
  | cons nxt ls ih =>
    intro st h1 h2 h3 h4 h5
    by_cases hv : nxt ∈ st.visited
    · rw [expandBfs, if_pos hv]
      exact ih st h1 h2 (fun x hx => h3 x (List.mem_cons_of_mem nxt hx)) h4 h5
    · have hcn : cur ≠ nxt := fun he => hv (he ▸ h2)
      have hst2v : start ∈ nxt :: st.visited := List.mem_cons_of_mem nxt h1
      have hcur2 : cur ∈ nxt :: st.visited := List.mem_cons_of_mem nxt h2
      have hchain2 : BfsChain P start
          { visited := nxt :: st.visited
            parent := (nxt, cur) :: st.parent
            depth := (nxt, d + 1) :: st.depth } := by
        intro x hx hxs
        rcases List.mem_cons.1 hx with he | hxv
        · subst he
          refine ⟨h3 x (List.mem_cons_self x ls), cur, ?_, hcur2, ?_⟩
          · simp [alookup]
          · have hdx : alookup ((x, d + 1) :: st.depth) x = some (d + 1) := by
              simp [alookup]
            have hdc : alookup ((x, d + 1) :: st.depth) cur = alookup st.depth cur :=
              alookup_cons_ne st.depth x cur (d + 1) hcn
            simp only [hdx, hdc, Option.getD_some, h5]
        · have hxn : x ≠ nxt := fun he => hv (he ▸ hxv)
          rcases h4 x hxv hxs with ⟨hPx, p, hpar, hpv, hdep⟩
          have hpn : p ≠ nxt := fun he => hv (he ▸ hpv)
          refine ⟨hPx, p, ?_, List.mem_cons_of_mem nxt hpv, ?_⟩
          · rw [alookup_cons_ne st.parent nxt x cur hxn]
            exact hpar
          · rw [alookup_cons_ne st.depth nxt x (d + 1) hxn,
              alookup_cons_ne st.depth nxt p (d + 1) hpn]
            exact hdep
      have hd2 : (alookup ((nxt, d + 1) :: st.depth) cur).getD 0 = d := by
        rw [alookup_cons_ne st.depth nxt cur (d + 1) hcn]
        exact h5
      have hrec := ih
        { visited := nxt :: st.visited
          parent := (nxt, cur) :: st.parent
          depth := (nxt, d + 1) :: st.depth }
        hst2v hcur2 (fun x hx => h3 x (List.mem_cons_of_mem nxt hx)) hchain2 hd2
      rw [expandBfs, if_neg hv]
      refine ⟨hrec.1, ?_, ?_, hrec.2.2.2⟩
      · intro x hx
        exact hrec.2.1 x (List.mem_cons_of_mem nxt hx)
      · intro x hx
        rcases List.mem_cons.1 hx with he | hx'
        · exact he ▸ hrec.2.1 nxt (List.mem_cons_self nxt st.visited)
        · exact hrec.2.2.1 x hx'

/-- The funnel BFS maintains the search-tree invariant and, when it
returns a conversion node, that node is visited, differs from the
start, matches the conversion heuristic, sits within the step budget,
is the last conversion-checked node, and no earlier checked node
matched - the search stopped at the first match in dequeue order. -/
theorem bfsLoop_spec (adjList : List (String × List String)) (start : String)
    (maxSteps : Nat) (P : String → Prop)
    (hadj : ∀ kv ∈ adjList, ∀ v ∈ kv.2, P v) :
    ∀ (st : BfsSt) (queue : List String),
      start ∈ st.visited →
      (∀ x ∈ queue, x ∈ st.visited) →
      BfsChain P start st →
      (start ∈ (bfsLoop adjList start maxSteps st queue).fin.visited ∧
       BfsChain P start (bfsLoop adjList start maxSteps st queue).fin ∧
       ∀ c, (bfsLoop adjList start maxSteps st queue).conv = some c →
         c ∈ (bfsLoop adjList start maxSteps st queue).fin.visited ∧
         c ≠ start ∧ isProbablyConversion c = true ∧
         (alookup (bfsLoop adjList start maxSteps st queue).fin.depth c).getD 0 ≤ maxSteps ∧
         (bfsLoop adjList start maxSteps st queue).trace.getLast? = some c ∧
         ∀ v ∈ (bfsLoop adjList start maxSteps st queue).trace.dropLast,
           ((v != start) && isProbablyConversion v) = false) := by
  intro st queue
  induction st, queue using bfsLoop.induct adjList start maxSteps with
  | case1 st =>
    intro h1 _h2 h3
    simp only [bfsLoop]
    exact ⟨h1, h3, fun c hc => by simp at hc⟩
  | case2 st cur rest d hd ih =>
    intro h1 h2 h3
    have hb : bfsLoop adjList start maxSteps st (cur :: rest) =
        bfsLoop adjList start maxSteps st rest := by
      simp only [bfsLoop]
      rw [if_pos hd]
    rw [hb]
    exact ih h1 (fun x hx => h2 x (List.mem_cons_of_mem cur hx)) h3
  | case3 st cur rest d hd hcv =>
    intro h1 h2 h3
    have hb : bfsLoop adjList start maxSteps st (cur :: rest) =
        { conv := some cur, fin := st, trace := [cur] } := by
      simp only [bfsLoop]
      rw [if_neg hd, if_pos hcv]
    rw [hb]
    refine ⟨h1, h3, ?_⟩
    intro c hcc
    have hcur : cur = c := Option.some.inj hcc
    subst hcur
    rw [Bool.and_eq_true] at hcv
    refine ⟨h2 cur (List.mem_cons_self cur rest), ?_, hcv.2, ?_, rfl, ?_⟩
    · exact bne_iff_ne.1 hcv.1
    · exact Nat.not_lt.1 hd
    · intro v hv
      simp at hv
  | case4 st cur rest d hd hcv e ih =>
    intro h1 h2 h3
    have hcur : cur ∈ st.visited := h2 cur (List.mem_cons_self cur rest)
    have hlinks : ∀ x ∈ (alookup adjList cur).getD [], P x := by
      cases hak : alookup adjList cur with
      | none => simp
      | some vs =>
        simp only [Option.getD_some]
        intro x hx
        exact hadj (cur, vs) (alookup_mem adjList cur vs hak) x hx
    have hex := expandBfs_spec P start cur d ((alookup adjList cur).getD []) st
      h1 hcur hlinks h3 rfl
    have hq2 : ∀ x ∈ rest ++ e.2, x ∈ e.1.visited := by
      intro x hx
      rcases List.mem_append.1 hx with h | h
      · exact hex.2.1 x (h2 x (List.mem_cons_of_mem cur h))
      · exact hex.2.2.1 x h
    have hrec := ih hex.1 hq2 hex.2.2.2
    have hb : bfsLoop adjList start maxSteps st (cur :: rest) =
        { conv := (bfsLoop adjList start maxSteps e.1 (rest ++ e.2)).conv
          fin := (bfsLoop adjList start maxSteps e.1 (rest ++ e.2)).fin
          trace := cur :: (bfsLoop adjList start maxSteps e.1 (rest ++ e.2)).trace } := by
      simp only [bfsLoop]
      rw [if_neg hd, if_neg hcv]
    rw [hb]
    refine ⟨hrec.1, hrec.2.1, ?_⟩
    intro c hcc
    simp only at hcc
    have hfacts := hrec.2.2 c hcc
    have htne : (bfsLoop adjList start maxSteps e.1 (rest ++ e.2)).trace ≠ [] := by
      intro hnil
      have := hfacts.2.2.2.2.1
      rw [hnil] at this
      simp at this
    obtain ⟨t0, ts, hts⟩ := List.exists_cons_of_ne_nil htne
    refine ⟨hfacts.1, hfacts.2.1, hfacts.2.2.1, hfacts.2.2.2.1, ?_, ?_⟩
    · show (cur :: (bfsLoop adjList start maxSteps e.1 (rest ++ e.2)).trace).getLast? = some c
      rw [hts, List.getLast?_cons_cons, ← hts]
      exact hfacts.2.2.2.2.1
    · intro v hv
      simp only at hv
      rw [hts] at hv
      have hdl : (cur :: t0 :: ts).dropLast = cur :: (t0 :: ts).dropLast := rfl
      rw [hdl] at hv
      rcases List.mem_cons.1 hv with he | hv'
      · subst he
        exact eq_false_of_ne_true hcv
      · have := hfacts.2.2.2.2.2
        rw [hts] at this
        exact this v hv'

/-- The parent-pointer walk from a visited node is never longer than
that node's stored depth, and it only passes through visited nodes
other than the start. -/
theorem reconstruct_spec (P : String → Prop) (start : String) (st : BfsSt)
    (hchain : BfsChain P start st) :
    ∀ (fuel : Nat) (x : String), x ∈ st.visited →
      (reconstruct st.parent start fuel x).length ≤ (alookup st.depth x).getD 0 ∧
      ∀ y ∈ reconstruct st.parent start fuel x, y ∈ st.visited ∧ y ≠ start := by
  intro fuel
  induction fuel with
  | zero =>
    intro x _hx
    simp [reconstruct]
  | succ fuel ih =>
    intro x hx
    by_cases hxs : x = start
    · rw [reconstruct, if_pos hxs]
      simp
    · rcases hchain x hx hxs with ⟨_hPx, p, hpar, hpv, hdep⟩
      rw [reconstruct, if_neg hxs, hpar]
      have hih := ih p hpv
      constructor
      · simp only [List.length_cons]
        rw [hdep]
        exact Nat.succ_le_succ hih.1
      · intro y hy
        rcases List.mem_cons.1 hy with he | h'
        · exact he ▸ ⟨hx, hxs⟩
        · exact hih.2 y h'

/-- A nonzero-fuel walk from a node other than the start begins with
that node. -/
theorem reconstruct_head (parent : List (String × String)) (start : String)
    (fuel : Nat) (x : String) (hx : x ≠ start) :
    ∃ t, reconstruct parent start (fuel + 1) x = x :: t := by
  rw [reconstruct, if_neg hx]
  cases alookup parent x
  · exact ⟨[], rfl⟩
  · exact ⟨_, rfl⟩

/-- Every funnel produced by buildFunnels comes from a landing Page
Finding at or above the ad-like threshold that does not match the
conversion heuristic, ends at a conversion Page Finding of the input
set, carries a steps list that is nonempty (its last element is the
conversion node), has at most 5 path edges, visits only final URLs of
input pages, and carries the confidence
`round(min(100, 2*landingScore + convScore + 10/steps.length))`. -/
theorem buildFunnels_mem (adPages : List PageFinding) (f : FunnelPath)
    (hf : f ∈ buildFunnels adPages) :
    ∃ lp cp, lp ∈ adPages ∧ cp ∈ adPages ∧
      lp.finalUrl = f.landing ∧ cp.finalUrl = f.conversion ∧
      18 ≤ lp.score ∧
      isProbablyConversion f.landing = false ∧
      f.steps ≠ [] ∧ f.steps.getLast? = some f.conversion ∧
      f.steps.length ≤ 5 ∧
      (∀ u ∈ f.steps, ∃ q, q ∈ adPages ∧ q.finalUrl = u) ∧
      f.confidence =
        roundJs (min 100
          ((lp.score : ℚ) * 2 + (cp.score : ℚ) + 10 / (f.steps.length : ℚ))) := by
  simp only [buildFunnels] at hf
  have h1 := sortFunnelsDesc_subset _ f (dedupeFunnels_subset _ [] f hf)
  rcases List.mem_filterMap.1 h1 with ⟨startP, hstartP, hstep⟩
  unfold funnelStep at hstep
  by_cases hsc : startP.score < 18
  · rw [if_pos hsc] at hstep
    exact absurd hstep (by simp)
  rw [if_neg hsc] at hstep
  by_cases hpc : isProbablyConversion startP.finalUrl = true
  · rw [if_pos hpc] at hstep
    exact absurd hstep (by simp)
  rw [if_neg hpc] at hstep
  simp only [] at hstep
  cases hconv : (bfsLoop (mkAdjList adPages (byUrlMap adPages)) startP.finalUrl 5
      { visited := [startP.finalUrl], parent := [], depth := [(startP.finalUrl, 0)] }
      [startP.finalUrl]).conv with
  | none =>
    rw [hconv] at hstep
    exact absurd hstep (by simp)
  | some conv =>
    rw [hconv] at hstep
    have hadj : ∀ kv ∈ mkAdjList adPages (byUrlMap adPages), ∀ v ∈ kv.2,
        (byUrlMap adPages v).isSome = true := by
      intro kv hkv v hv
      rcases mkAdjList_mem adPages (byUrlMap adPages) kv hkv with ⟨p, _hp, he⟩
      rw [he] at hv
      exact edgesOf_isSome (byUrlMap adPages) p v hv
    have hspec := bfsLoop_spec (mkAdjList adPages (byUrlMap adPages)) startP.finalUrl 5
      (fun x => (byUrlMap adPages x).isSome = true) hadj
      { visited := [startP.finalUrl], parent := [], depth := [(startP.finalUrl, 0)] }
      [startP.finalUrl]
      (List.mem_cons_self _ _) (fun x hx => hx)
      (by
        intro x hx hxs
        rcases List.mem_cons.1 hx with he | h'
        · exact absurd he hxs
        · simp at h')
    have hcf := hspec.2.2 conv hconv
    have hPconv : (byUrlMap adPages conv).isSome = true :=
      (hspec.2.1 conv hcf.1 hcf.2.1).1
    obtain ⟨cp, hcp⟩ := Option.isSome_iff_exists.1 hPconv
    have hcpm := byUrlMap_some adPages conv cp hcp
    have hfeq := Option.some.inj hstep
    have hrh := reconstruct_head
      (bfsLoop (mkAdjList adPages (byUrlMap adPages)) startP.finalUrl 5
        { visited := [startP.finalUrl], parent := [], depth := [(startP.finalUrl, 0)] }
        [startP.finalUrl]).fin.parent startP.finalUrl
      (bfsLoop (mkAdjList adPages (byUrlMap adPages)) startP.finalUrl 5
        { visited := [startP.finalUrl], parent := [], depth := [(startP.finalUrl, 0)] }
        [startP.finalUrl]).fin.visited.length conv hcf.2.1
    obtain ⟨tail, htail⟩ := hrh
    have hrs := reconstruct_spec (fun x => (byUrlMap adPages x).isSome = true)
      startP.finalUrl _ hspec.2.1
      ((bfsLoop (mkAdjList adPages (byUrlMap adPages)) startP.finalUrl 5
        { visited := [startP.finalUrl], parent := [], depth := [(startP.finalUrl, 0)] }
        [startP.finalUrl]).fin.visited.length + 1) conv hcf.1
    rw [← hfeq]
    simp only []
    have hne : (reconstruct
        (bfsLoop (mkAdjList adPages (byUrlMap adPages)) startP.finalUrl 5
          { visited := [startP.finalUrl], parent := [], depth := [(startP.finalUrl, 0)] }
          [startP.finalUrl]).fin.parent startP.finalUrl
        ((bfsLoop (mkAdjList adPages (byUrlMap adPages)) startP.finalUrl 5
          { visited := [startP.finalUrl], parent := [], depth := [(startP.finalUrl, 0)] }
          [startP.finalUrl]).fin.visited.length + 1) conv).reverse ≠ [] := by
      rw [htail]
      simp
    refine ⟨startP, cp, hstartP, hcpm.1, rfl, hcpm.2, Nat.not_lt.1 hsc,
      eq_false_of_ne_true hpc, hne, ?_, ?_, ?_, ?_⟩
    · rw [htail]
      rw [List.getLast?_reverse]
      rfl
    · rw [List.length_reverse]
      exact le_trans (hrs.1) hcf.2.2.2.1
    · intro u hu
      rw [List.mem_reverse] at hu
      have hy := hrs.2 u hu
      have hPy := (hspec.2.1 u hy.1 hy.2).1
      obtain ⟨q, hq⟩ := Option.isSome_iff_exists.1 hPy
      have hqm := byUrlMap_some adPages u q hq
      exact ⟨q, hqm.1, hqm.2⟩
    · rw [hcp]
      simp only []
      rw [if_neg (by
        rw [List.length_reverse, htail]
        simp)]

/-- The crawl loop never emits more than maxPages URLs: the emitted
accumulator grows only while strictly below the budget. -/
theorem crawlLoop_length (base : Url) (rules : RobotsRules) (pageLinks : Url → List Url)
    (maxPages maxDepth maxQueue : Nat) :
    ∀ (n : Nat) (q : List (Url × Nat)) (seen found : List String),
      maxPages - found.length ≤ n → found.length ≤ maxPages →
      (crawlLoop base rules pageLinks maxPages maxDepth maxQueue q seen found).length ≤
        maxPages := by
  intro n
  induction n with
  | zero =>
    intro q seen found h1 h2
    cases q with
    | nil =>
      simpa only [crawlLoop] using h2
    | cons hd rest =>
      obtain ⟨url, depth⟩ := hd
      have hP : maxPages ≤ found.length := by omega
      simp only [crawlLoop]
      rw [dif_pos hP]
      exact h2
  | succ n ih =>
    intro q
    induction q with
    | nil =>
      intro seen found _h1 h2
      simpa only [crawlLoop] using h2
    | cons hd rest ihq =>
      intro seen found h1 h2
      obtain ⟨url, depth⟩ := hd
      by_cases hP : maxPages ≤ found.length
      · simp only [crawlLoop]
        rw [dif_pos hP]
        exact h2
      · by_cases hQ : maxQueue ≤ rest.length + 1
        · simp only [crawlLoop]
          rw [dif_neg hP, dif_pos hQ]
          exact h2
        · have hlt : found.length < maxPages := Nat.not_le.1 hP
          have hlen : (found ++ [url.toStr]).length = found.length + 1 := by simp
          by_cases hA : isAllowedByRobots base rules url = true
          · by_cases hD : maxDepth ≤ depth
            · simp only [crawlLoop]
              rw [dif_neg hP, dif_neg hQ, if_pos hA, if_pos hD]
              apply ih
              · rw [hlen]
                omega
              · rw [hlen]
                omega
            · simp only [crawlLoop]
              rw [dif_neg hP, dif_neg hQ, if_pos hA, if_neg hD]
              apply ih
              · rw [hlen]
                omega
              · rw [hlen]
                omega
          · simp only [crawlLoop]
            rw [dif_neg hP, dif_neg hQ, if_neg hA]
            exact ihq seen found h1 h2

/-- Prepending a successful fetch to a trace raises its success count
by one. -/
theorem countP_snd_cons_true (sm : String) (l : List (String × Bool)) :
    ((sm, true) :: l).countP (fun e => e.2) = l.countP (fun e => e.2) + 1 := by
  rw [List.countP_cons]
  simp

/-- Prepending a failed fetch to a trace keeps its success count. -/
theorem countP_snd_cons_false (sm : String) (l : List (String × Bool)) :
    ((sm, false) :: l).countP (fun e => e.2) = l.countP (fun e => e.2) := by
  rw [List.countP_cons]
  simp

/-- The sitemap work loop fetches at most 20 documents successfully
and never issues a fetch after the 20th success: the success count of
any proper trace prefix, shifted by the successes already recorded,
stays below 20. -/
theorem discoverLoop_spec (fetchSm : String → Option SmParsed) :
    ∀ (n : Nat) (q found urls seen : List String),
      20 - found.length ≤ n → found.length ≤ 20 →
      ((discoverLoop fetchSm q found urls seen).2.1.length ≤ 20 ∧
       ∀ i, i < (discoverLoop fetchSm q found urls seen).2.2.length →
         found.length +
           ((discoverLoop fetchSm q found urls seen).2.2.take i).countP (fun e => e.2) <
           20) := by
  intro n
  induction n with
  | zero =>
    intro q found urls seen h1 h2
    cases q with
    | nil =>
      simp only [discoverLoop]
      exact ⟨h2, by intro i hi; simp at hi⟩
    | cons sm rest =>
      have h20 : 20 ≤ found.length := by omega
      simp only [discoverLoop]
      rw [dif_pos h20]
      exact ⟨h2, by intro i hi; simp at hi⟩
  | succ n ih =>
    intro q
    induction q with
    | nil =>
      intro found urls seen _h1 h2
      simp only [discoverLoop]
      exact ⟨h2, by intro i hi; simp at hi⟩
    | cons sm rest ihq =>
      intro found urls seen h1 h2
      by_cases h20 : 20 ≤ found.length
      · simp only [discoverLoop]
        rw [dif_pos h20]
        exact ⟨h2, by intro i hi; simp at hi⟩
      · have hlt : found.length < 20 := Nat.not_le.1 h20
        by_cases hs : sm ∈ seen
        · simp only [discoverLoop]
          rw [dif_neg h20, if_pos hs]
          exact ihq found urls seen h1 h2
        · cases hft : fetchSm sm with
          | none =>
            simp only [discoverLoop]
            rw [dif_neg h20, if_neg hs, hft]
            have hr := ihq found urls (sm :: seen) h1 h2
            refine ⟨hr.1, ?_⟩
            intro i hi
            simp only [List.length_cons] at hi
            cases i with
            | zero => simpa using hlt
            | succ j =>
              rw [List.take_succ_cons, countP_snd_cons_false]
              exact hr.2 j (by omega)
          | some parsed =>
            simp only [discoverLoop]
            rw [dif_neg h20, if_neg hs, hft]
            have hflen : (found ++ [sm]).length = found.length + 1 := by simp
            have hr := ih (rest ++ parsed.childSitemaps.filter fun c => decide (c ∉ sm :: seen))
              (found ++ [sm]) (urls ++ parsed.urls) (sm :: seen)
              (by rw [hflen]; omega) (by rw [hflen]; omega)
            refine ⟨hr.1, ?_⟩
            intro i hi
            simp only [List.length_cons] at hi
            cases i with
            | zero => simpa using hlt
            | succ j =>
              have hj := hr.2 j (by omega)
              rw [hflen] at hj
              rw [List.take_succ_cons, countP_snd_cons_true]
              omega

/-- Capping at 100 commutes with rounding half up: min(100, round x)
equals round(min(100, x)). -/
theorem roundJs_min_comm (x : ℚ) :
    min (100 : ℤ) (roundJs x) = roundJs (min (100 : ℚ) x) := by
  unfold roundJs
  have h100 : ⌊(100 : ℚ) + 1 / 2⌋ = (100 : ℤ) := by
    rw [Int.floor_eq_iff]
    norm_num
  rcases le_total x 100 with h | h
  · rw [min_eq_right h]
    apply min_eq_right
    calc ⌊x + 1 / 2⌋ ≤ ⌊(100 : ℚ) + 1 / 2⌋ := Int.floor_le_floor (by linarith)
    _ = 100 := h100
  · rw [min_eq_left h]
    rw [h100]
    apply min_eq_left
    calc (100 : ℤ) = ⌊(100 : ℚ) + 1 / 2⌋ := h100.symm
    _ ≤ ⌊x + 1 / 2⌋ := Int.floor_le_floor (by linarith)

/-- Every page of runFunnelTail's ad-like list comes from the checked
list and passed the threshold. -/
theorem runFunnelTail_adLike (baseUrl : String) (checked : List PageFinding) :
    ∀ p ∈ (runFunnelTail baseUrl checked).1, p ∈ checked ∧ 18 ≤ p.score := by
  intro p hp
  simp only [runFunnelTail] at hp
  have h1 : p ∈ (sortPagesByScoreDesc checked).filter fun q => decide (18 ≤ q.score) :=
    List.mem_of_mem_take hp
  have h2 := List.mem_filter.1 h1
  exact ⟨sortPagesByScoreDesc_subset _ p h2.1, by simpa using h2.2⟩

/-- A list whose last element is known is its dropLast plus that
element. -/
theorem dropLast_append_of_getLast (l : List String) (a : String)
    (h : l.getLast? = some a) : l.dropLast ++ [a] = l := by
  induction l with
  | nil => simp at h
  | cons x xs ih =>
    cases xs with
    | nil =>
      simp at h
      subst h
      rfl
    | cons y ys =>
      have h2 : (y :: ys).getLast? = some a := by
        rw [← h, List.getLast?_cons_cons]
      have ihr := ih h2
      show x :: ((y :: ys).dropLast ++ [a]) = x :: y :: ys
      rw [ihr]

/-- The conversion heuristic on the three example pages. -/
theorem cex_isConv : isProbablyConversion "https://h.example/checkout" = true ∧
    isProbablyConversion "https://h.example/step" = false ∧
    isProbablyConversion "https://h.example/lp" = false := by decide

/-- The model's funnel builder, evaluated on the three-page example:
two funnels, confidence 70 for the direct one and 65 for the one with
an intermediate step. -/
theorem buildFunnels_cex_eval :
    buildFunnels cexPages = [cexFunnelStep, cexFunnelLp] := by
  simp only [buildFunnels, cexPages, cexLanding, cexStep, cexCheckout,
    cexFunnelStep, cexFunnelLp]
  simp [byUrlMap, mkAdjList, edgesOf, funnelStep, bfsLoop, expandBfs, alookup,
    reconstruct, roundJs, cex_isConv.1, cex_isConv.2.1, cex_isConv.2.2,
    sortFunnelsDesc, insertFunnel, List.filterMap_cons]
  norm_num [dedupeFunnels]
  decide

/-- runFunnelTail keeps all three example pages as ad-like. -/
theorem runFunnelTail_cex_adLike :
    (runFunnelTail "https://h.example/" cexPages).1 = cexPages := by
  simp [runFunnelTail, sortPagesByScoreDesc, insertPage, cexPages,
    cexLanding, cexStep, cexCheckout]

/-- runFunnelTail's funnels on the example are the two expected
funnels. -/
theorem runFunnelTail_cex_funnels :
    (runFunnelTail "https://h.example/" cexPages).2.1 = [cexFunnelStep, cexFunnelLp] := by
  have h1 : (runFunnelTail "https://h.example/" cexPages).2.1 =
      buildFunnels (runFunnelTail "https://h.example/" cexPages).1 := rfl
  rw [h1, runFunnelTail_cex_adLike, buildFunnels_cex_eval]

/-- The sitemap discovery trace on the one-document example oracle. -/
theorem discover_cex_trace :
    (discoverSitemapUrls cexBase [] cexFetchSm).2.2 = [("https://a.com/sitemap.xml", true)] := by
  simp [discoverSitemapUrls, discoverLoop, dedupKeepFirst, dedupAux, cexBase, cexFetchSm]

/-- stripUtm is idempotent on URL values: filtering the parameter list
twice is filtering it once. -/
theorem stripUtm_idem (u : Url) : stripUtm (stripUtm u) = stripUtm u := by
  unfold stripUtm
  cases u
  simp [List.filter_filter]

/-- C1 counterexample: on the concrete three-page site, the funnel
from the lp landing has one intermediate step, the code computes
confidence 65, but the claimed formula (with stepCount counting the
intermediate steps, per the spec's data model) gives 70. -/
theorem C1_counterexample :
    buildFunnels cexPages = [cexFunnelStep, cexFunnelLp] ∧
    cexFunnelLp.landing = cexLanding.finalUrl ∧
    cexFunnelLp.conversion = cexCheckout.finalUrl ∧
    cexLanding.score = 20 ∧ cexCheckout.score = 20 ∧
    cexFunnelLp.steps.dropLast = ["https://h.example/step"] ∧
    cexFunnelLp.confidence = 65 ∧
    specConfidenceClaim 20 20 1 = 70 ∧
    cexFunnelLp.confidence ≠ specConfidenceClaim 20 20 1 := by
  have hspec : specConfidenceClaim 20 20 1 = 70 := by
    norm_num [specConfidenceClaim, roundJs]
  exact ⟨buildFunnels_cex_eval, by decide, by decide, by decide, by decide, by decide,
    by decide, hspec, by rw [hspec]; decide⟩

/-- C1 (amended): for every funnel returned by the funnel builder, its
confidence equals min(100, round(2*landingScore + conversionScore +
10/pathEdges)), where pathEdges is the number of edges on the funnel
path — the length of the returned steps sequence, whose last element
is the conversion, so pathEdges = intermediateStepCount + 1 ≥ 1.  At
zero intermediate steps this gives 10/1 = 10, which is where the
spec's "else 10" branch agrees with the code. -/
theorem C1_funnel_confidence_amended (adPages : List PageFinding) (f : FunnelPath)
    (hf : f ∈ buildFunnels adPages) :
    ∃ lp cp, lp ∈ adPages ∧ lp.finalUrl = f.landing ∧ cp ∈ adPages ∧
      cp.finalUrl = f.conversion ∧ 1 ≤ f.steps.length ∧
      f.confidence =
        min 100 (roundJs ((lp.score : ℚ) * 2 + (cp.score : ℚ) + 10 / (f.steps.length : ℚ))) := by
  obtain ⟨lp, cp, a1, a2, a3, a4, _a5, _a6, a7, _a8, _a9, _a10, a11⟩ :=
    buildFunnels_mem adPages f hf
  refine ⟨lp, cp, a1, a3, a2, a4, ?_, ?_⟩
  · exact List.length_pos.2 a7
  · rw [a11, roundJs_min_comm]

/-- C1 witness: the amended confidence equation instantiated on the
concrete three-page site's lp funnel. -/
theorem C1_funnel_confidence_amended_witness :
    ∃ lp cp, lp ∈ cexPages ∧ lp.finalUrl = cexFunnelLp.landing ∧ cp ∈ cexPages ∧
      cp.finalUrl = cexFunnelLp.conversion ∧ 1 ≤ cexFunnelLp.steps.length ∧
      cexFunnelLp.confidence =
        min 100
          (roundJs ((lp.score : ℚ) * 2 + (cp.score : ℚ) + 10 / (cexFunnelLp.steps.length : ℚ))) :=
  C1_funnel_confidence_amended cexPages cexFunnelLp
    (by rw [buildFunnels_cex_eval]; simp)

/-- C2: in the combined report of the full-run tail, every funnel
chain line is the landing, the intermediate steps, then the
conversion, joined by " -> " and annotated with the confidence: the
steps list of a returned funnel ends with its conversion node, so the
printed chain `[landing, ...steps]` is exactly
`landing -> step -> ... -> conversion`, and the report is built from
funnelLine per funnel. -/
theorem C2_report_funnel_lines (baseUrl : String) (checked : List PageFinding)
    (f : FunnelPath) (hf : f ∈ (runFunnelTail baseUrl checked).2.1) :
    f.steps.getLast? = some f.conversion ∧
    funnelLine f =
      "- [" ++ toString f.confidence ++ "] " ++
        String.intercalate " -> " (f.landing :: (f.steps.dropLast ++ [f.conversion])) ∧
    (runFunnelTail baseUrl checked).2.2 =
      formatOutputText baseUrl (runFunnelTail baseUrl checked).1
        (runFunnelTail baseUrl checked).2.1 := by
  have hf' : f ∈ buildFunnels (runFunnelTail baseUrl checked).1 := hf
  obtain ⟨_lp, _cp, _, _, _, _, _, _, _a7, a8, _, _, _⟩ := buildFunnels_mem _ f hf'
  refine ⟨a8, ?_, rfl⟩
  unfold funnelLine
  rw [dropLast_append_of_getLast f.steps f.conversion a8]

/-- C2 witness: the chain-line equation on the concrete example's
direct funnel. -/
theorem C2_report_funnel_lines_witness :
    cexFunnelStep.steps.getLast? = some cexFunnelStep.conversion ∧
    funnelLine cexFunnelStep =
      "- [" ++ toString cexFunnelStep.confidence ++ "] " ++
        String.intercalate " -> "
          (cexFunnelStep.landing :: (cexFunnelStep.steps.dropLast ++ [cexFunnelStep.conversion])) ∧
    (runFunnelTail "https://h.example/" cexPages).2.2 =
      formatOutputText "https://h.example/" (runFunnelTail "https://h.example/" cexPages).1
        (runFunnelTail "https://h.example/" cexPages).2.1 :=
  C2_report_funnel_lines "https://h.example/" cexPages cexFunnelStep
    (by rw [runFunnelTail_cex_funnels]; simp)

/-- C3: for every site graph (the pageLinks oracle, which covers a
complete graph on 10,000 nodes as a special case), every robots rule
set, and every seed, the crawler's emitted URL list contains no URL
twice and never exceeds the page budget 350 (with the default depth
budget 4 and queue ceiling 5000). -/
theorem C3_crawler_nodup_budget (seed : Url) (rules : RobotsRules)
    (pageLinks : Url → List Url) :
    (crawlInternalLinks seed rules pageLinks 350 4).Nodup ∧
    (crawlInternalLinks seed rules pageLinks 350 4).length ≤ 350 := by
  constructor
  · exact dedupKeepFirst_nodup _
  · unfold crawlInternalLinks
    have h1 := dedupKeepFirst_length
      (crawlLoop seed rules pageLinks 350 4 5000 [(seed, 0)] [(stripUtm seed).toStr] [])
    have h2 := crawlLoop_length seed rules pageLinks 350 4 5000 350
      [(seed, 0)] [(stripUtm seed).toStr] [] (by simp) (by simp)
    omega

/-- C4: every funnel's reconstructed path has at most 5 edges (the
steps list, which ends at the conversion node, has length at most the
step budget 5), and the BFS of the funnel builder returns the first
dequeued node other than the landing that matches the conversion
heuristic, stopping there: the returned node is the last
conversion-checked node and no earlier checked node matched. -/
theorem C4_step_budget_first_match :
    (∀ (adPages : List PageFinding) (f : FunnelPath), f ∈ buildFunnels adPages →
      f.steps.length ≤ 5) ∧
    (∀ (adjList : List (String × List String)) (start c : String),
      (bfsLoop adjList start 5
        { visited := [start], parent := [], depth := [(start, 0)] } [start]).conv = some c →
      c ≠ start ∧ isProbablyConversion c = true ∧
      (bfsLoop adjList start 5
        { visited := [start], parent := [], depth := [(start, 0)] } [start]).trace.getLast? =
        some c ∧
      ∀ v ∈ (bfsLoop adjList start 5
          { visited := [start], parent := [], depth := [(start, 0)] } [start]).trace.dropLast,
        ((v != start) && isProbablyConversion v) = false) := by
  constructor
  · intro adPages f hf
    obtain ⟨_, _, _, _, _, _, _, _, _, _a8, a9, _, _⟩ := buildFunnels_mem adPages f hf
    exact a9
  · intro adjList start c hc
    have hspec := bfsLoop_spec adjList start 5 (fun _ => True)
      (fun _kv _ v _ => trivial)
      { visited := [start], parent := [], depth := [(start, 0)] } [start]
      (List.mem_cons_self _ _) (fun x hx => hx)
      (by
        intro x hx hxs
        rcases List.mem_cons.1 hx with he | h'
        · exact absurd he hxs
        · simp at h')
    have hcf := hspec.2.2 c hc
    exact ⟨hcf.2.1, hcf.2.2.1, hcf.2.2.2.2.1, hcf.2.2.2.2.2⟩

/-- C4 witness: the step bound on the concrete lp funnel and the
first-match facts on the concrete adjacency. -/
theorem C4_step_budget_first_match_witness :
    cexFunnelLp.steps.length ≤ 5 ∧
    ("https://h.example/checkout" ≠ "https://h.example/lp" ∧
     isProbablyConversion "https://h.example/checkout" = true ∧
     (bfsLoop cexAdj "https://h.example/lp" 5
       { visited := ["https://h.example/lp"], parent := [],
         depth := [("https://h.example/lp", 0)] }
       ["https://h.example/lp"]).trace.getLast? = some "https://h.example/checkout" ∧
     ∀ v ∈ (bfsLoop cexAdj "https://h.example/lp" 5
         { visited := ["https://h.example/lp"], parent := [],
           depth := [("https://h.example/lp", 0)] }
         ["https://h.example/lp"]).trace.dropLast,
       ((v != "https://h.example/lp") && isProbablyConversion v) = false) :=
  ⟨C4_step_budget_first_match.1 cexPages cexFunnelLp
      (by rw [buildFunnels_cex_eval]; simp),
   C4_step_budget_first_match.2 cexAdj "https://h.example/lp" "https://h.example/checkout"
      (by
        simp [bfsLoop, cexAdj, expandBfs, alookup, cex_isConv.1, cex_isConv.2.1,
          cex_isConv.2.2])⟩

/-- C5: every URL of a returned funnel (landing, every step, and the
conversion) is the finalUrl of an ad-like Page Finding of the run
(score at or above the 18 threshold), and the landing never matches
the conversion heuristic. -/
theorem C5_funnel_urls_adlike (baseUrl : String) (checked : List PageFinding)
    (f : FunnelPath) (hf : f ∈ (runFunnelTail baseUrl checked).2.1) :
    (∀ u, (u = f.landing ∨ u ∈ f.steps ∨ u = f.conversion) →
      ∃ p, p ∈ (runFunnelTail baseUrl checked).1 ∧ p.finalUrl = u ∧ 18 ≤ p.score) ∧
    isProbablyConversion f.landing = false := by
  have hf' : f ∈ buildFunnels (runFunnelTail baseUrl checked).1 := hf
  obtain ⟨lp, cp, a1, a2, a3, a4, a5, a6, _a7, _a8, _a9, a10, _a11⟩ :=
    buildFunnels_mem _ f hf'
  refine ⟨?_, a6⟩
  intro u hu
  rcases hu with he | hm | he
  · exact ⟨lp, a1, by rw [he]; exact a3, a5⟩
  · obtain ⟨q, hq1, hq2⟩ := a10 u hm
    exact ⟨q, hq1, hq2, (runFunnelTail_adLike baseUrl checked q hq1).2⟩
  · exact ⟨cp, a2, by rw [he]; exact a4, (runFunnelTail_adLike baseUrl checked cp a2).2⟩

/-- C5 witness: the ad-like origin of the concrete direct funnel's
conversion URL and the landing's non-conversion fact. -/
theorem C5_funnel_urls_adlike_witness :
    (∃ p, p ∈ (runFunnelTail "https://h.example/" cexPages).1 ∧
      p.finalUrl = cexFunnelStep.conversion ∧ 18 ≤ p.score) ∧
    isProbablyConversion cexFunnelStep.landing = false :=
  ⟨(C5_funnel_urls_adlike "https://h.example/" cexPages cexFunnelStep
      (by rw [runFunnelTail_cex_funnels]; simp)).1
      cexFunnelStep.conversion (Or.inr (Or.inr rfl)),
   (C5_funnel_urls_adlike "https://h.example/" cexPages cexFunnelStep
      (by rw [runFunnelTail_cex_funnels]; simp)).2⟩

/-- C6: sitemap discovery returns at most 20 fetched sitemap URLs and
never issues a fetch after the 20th success: every proper prefix of
the fetch trace carries fewer than 20 successes.  The discovery loop
terminates by construction (discoverLoop is a total function defined
by well-founded recursion on the success budget and the queue). -/
theorem C6_sitemap_cap (base : Url) (extraSitemaps : List String)
    (fetchSm : String → Option SmParsed) :
    (discoverSitemapUrls base extraSitemaps fetchSm).2.1.length ≤ 20 ∧
    ∀ i, i < (discoverSitemapUrls base extraSitemaps fetchSm).2.2.length →
      ((discoverSitemapUrls base extraSitemaps fetchSm).2.2.take i).countP
        (fun e => e.2) < 20 := by
  have hspec := discoverLoop_spec fetchSm 20
    (dedupKeepFirst ([base.scheme ++ "://" ++ base.host ++ "/sitemap.xml"] ++ extraSitemaps))
    [] [] [] (by simp) (by simp)
  constructor
  · have h1 : (discoverSitemapUrls base extraSitemaps fetchSm).2.1 =
        dedupKeepFirst ((discoverLoop fetchSm
          (dedupKeepFirst ([base.scheme ++ "://" ++ base.host ++ "/sitemap.xml"] ++
            extraSitemaps)) [] [] []).2.1) := rfl
    rw [h1]
    have h2 := dedupKeepFirst_length ((discoverLoop fetchSm
      (dedupKeepFirst ([base.scheme ++ "://" ++ base.host ++ "/sitemap.xml"] ++
        extraSitemaps)) [] [] []).2.1)
    omega
  · intro i hi
    have h2 : (discoverSitemapUrls base extraSitemaps fetchSm).2.2 =
        (discoverLoop fetchSm
          (dedupKeepFirst ([base.scheme ++ "://" ++ base.host ++ "/sitemap.xml"] ++
            extraSitemaps)) [] [] []).2.2 := rfl
    rw [h2] at hi ⊢
    have h3 := hspec.2 i hi
    simpa using h3

/-- C6 witness: the trace-prefix bound instantiated on the
one-document oracle. -/
theorem C6_sitemap_cap_witness :
    ((discoverSitemapUrls cexBase [] cexFetchSm).2.2.take 0).countP
      (fun e => e.2) < 20 :=
  (C6_sitemap_cap cexBase [] cexFetchSm).2 0 (by rw [discover_cex_trace]; simp)

/-- C7 counterexample: with an empty string recorded among the
disallow entries, a same-origin candidate whose path starts with that
recorded prefix (every path starts with the empty prefix) is still
allowed, because the source skips empty entries — so "false iff the
path starts with at least one recorded disallow prefix" fails as
stated. -/
theorem C7_counterexample :
    parseUrl "https://a.com/x" = some cexUrlX ∧
    sameOrigin cexUrlX cexUrlX = true ∧
    "" ∈ ruleEmptyDis.disallow ∧
    strStarts cexUrlX.path "" = true ∧
    isAllowedByRobots cexUrlX ruleEmptyDis cexUrlX = true := by
  decide

/-- C7 (amended): for parsed base and candidate URLs and any rules, an
off-origin candidate is always denied, and a same-origin candidate is
denied if and only if its path starts with at least one nonempty
recorded disallow prefix (plain string-prefix match; empty recorded
entries are skipped). -/
theorem C7_isAllowed_amended (bs cs : String) (base cand : Url) (rules : RobotsRules)
    (_hb : parseUrl bs = some base) (hc : parseUrl cs = some cand) :
    (sameOrigin base cand = false → isAllowedByRobots base rules cand = false) ∧
    (sameOrigin base cand = true →
      (isAllowedByRobots base rules cand = false ↔
        ∃ dis ∈ rules.disallow, dis ≠ "" ∧ strStarts cand.path dis = true)) := by
  have hwf := parseUrl_WF cs cand hc
  obtain ⟨_, _, _, ⟨prest, hpath⟩, _, _⟩ := hwf
  have hpne : cand.path ≠ "" := by
    intro he
    rw [he] at hpath
    exact List.noConfusion hpath
  constructor
  · intro hso
    unfold isAllowedByRobots
    rw [if_neg (by rw [hso]; exact Bool.false_ne_true)]
  · intro hso
    unfold isAllowedByRobots
    rw [if_pos hso]
    simp only [if_neg hpne]
    constructor
    · intro hall
      have hnall : ¬ (rules.disallow.all
          (fun dis => dis == "" || ! strStarts cand.path dis) = true) := by
        rw [hall]
        simp
      rw [List.all_eq_true] at hnall
      push_neg at hnall
      obtain ⟨dis, hdis, hfd⟩ := hnall
      have hfd' : ((dis == "") || ! strStarts cand.path dis) = false :=
        eq_false_of_ne_true hfd
      rw [Bool.or_eq_false_iff] at hfd'
      refine ⟨dis, hdis, ?_, ?_⟩
      · intro he
        rw [he] at hfd'
        simp at hfd'
      · have := hfd'.2
        rwa [Bool.not_eq_false'] at this
    · rintro ⟨dis, hdis, hne, hsw⟩
      cases hall : rules.disallow.all
          (fun dis => dis == "" || ! strStarts cand.path dis) with
      | false => rfl
      | true =>
        have hd := List.all_eq_true.1 hall dis hdis
        rw [Bool.or_eq_true] at hd
        rcases hd with hd | hd
        · exact absurd (by simpa using hd) hne
        · rw [Bool.not_eq_true'] at hd
          rw [hd] at hsw
          exact absurd hsw (by simp)

/-- C7 witness: the amended rule instantiated on the /admin example. -/
theorem C7_isAllowed_amended_witness :
    (sameOrigin cexBase cexAdmin = false → isAllowedByRobots cexBase cexRules cexAdmin = false) ∧
    (sameOrigin cexBase cexAdmin = true →
      (isAllowedByRobots cexBase cexRules cexAdmin = false ↔
        ∃ dis ∈ cexRules.disallow, dis ≠ "" ∧ strStarts cexAdmin.path dis = true)) :=
  C7_isAllowed_amended "https://a.com/" "https://a.com/admin/x" cexBase cexAdmin cexRules
    (by decide) (by decide)

/-- C8: for every parsable absolute URL string, stripUtm succeeds, its
result parses back, the surviving query parameters are exactly the
non-denylisted parameters of the input in their original relative
order (the filter of the original list, hence a sublist), no
denylisted key remains, and stripping is idempotent at string level. -/
theorem C8_stripTracking_props (s : String) (u : Url) (h : parseUrl s = some u) :
    ∃ t u', stripUtmStr s = some t ∧ parseUrl t = some u' ∧
      u'.query = u.query.filter (fun p => decide (p.1 ∉ utmKeys)) ∧
      (∀ p ∈ u'.query, p.1 ∉ utmKeys) ∧
      List.Sublist u'.query u.query ∧
      stripUtmStr t = some t := by
  have hwf := parseUrl_WF s u h
  have hwf2 := stripUtm_WF u hwf
  have hrt : parseUrl ((stripUtm u).toStr) = some (stripUtm u) := parseUrl_toStr _ hwf2
  refine ⟨(stripUtm u).toStr, stripUtm u, ?_, hrt, rfl, ?_, ?_, ?_⟩
  · unfold stripUtmStr
    rw [h]
    rfl
  · intro p hp
    have h2 := (List.mem_filter.1 hp).2
    simpa using h2
  · exact List.filter_sublist _
  · unfold stripUtmStr
    rw [hrt]
    simp only [Option.map_some']
    rw [stripUtm_idem]

/-- C8 witness: the stripping facts instantiated on a URL carrying two
tracking keys interleaved with two ordinary parameters. -/
theorem C8_stripTracking_props_witness :
    ∃ t u', stripUtmStr "https://a.com/p?utm_source=x&a=1&fbclid=y&b=2" = some t ∧
      parseUrl t = some u' ∧
      u'.query = cexQueryUrl.query.filter (fun p => decide (p.1 ∉ utmKeys)) ∧
      (∀ p ∈ u'.query, p.1 ∉ utmKeys) ∧
      List.Sublist u'.query cexQueryUrl.query ∧
      stripUtmStr t = some t :=
  C8_stripTracking_props "https://a.com/p?utm_source=x&a=1&fbclid=y&b=2" cexQueryUrl
    (by decide)

/-- C9: every funnel of the full-run tail has an integer confidence
between 54 and 100 inclusive, because landing and conversion are
ad-like Page Findings with score at least 18, so the raw value is at
least 54 before the 100 cap and rounding. -/
theorem C9_confidence_range (baseUrl : String) (checked : List PageFinding)
    (f : FunnelPath) (hf : f ∈ (runFunnelTail baseUrl checked).2.1) :
    54 ≤ f.confidence ∧ f.confidence ≤ 100 := by
  have hf' : f ∈ buildFunnels (runFunnelTail baseUrl checked).1 := hf
  obtain ⟨lp, cp, _a1, a2, _a3, _a4, a5, _a6, a7, _a8, _a9, _a10, a11⟩ :=
    buildFunnels_mem _ f hf'
  have hcp := (runFunnelTail_adLike baseUrl checked cp a2).2
  have hlp18 : (18 : ℚ) ≤ (lp.score : ℚ) := by exact_mod_cast a5
  have hcp18 : (18 : ℚ) ≤ (cp.score : ℚ) := by exact_mod_cast hcp
  have hlen : 0 < f.steps.length := List.length_pos.2 a7
  have hlenq : (1 : ℚ) ≤ (f.steps.length : ℚ) := by exact_mod_cast hlen
  have hB : (0 : ℚ) ≤ 10 / (f.steps.length : ℚ) := by positivity
  have h54 : (54 : ℚ) ≤ (lp.score : ℚ) * 2 + (cp.score : ℚ) + 10 / (f.steps.length : ℚ) := by
    linarith
  rw [a11]
  unfold roundJs
  constructor
  · rw [Int.le_floor]
    have hmin : (54 : ℚ) ≤ min 100 ((lp.score : ℚ) * 2 + (cp.score : ℚ) +
        10 / (f.steps.length : ℚ)) := le_min (by norm_num) h54
    push_cast
    linarith
  · have hmin2 : min (100 : ℚ) ((lp.score : ℚ) * 2 + (cp.score : ℚ) +
        10 / (f.steps.length : ℚ)) ≤ 100 := min_le_left _ _
    have hlt : ⌊min (100 : ℚ) ((lp.score : ℚ) * 2 + (cp.score : ℚ) +
        10 / (f.steps.length : ℚ)) + 1 / 2⌋ < 101 := by
      rw [Int.floor_lt]
      push_cast
      linarith
    omega

/-- C9 witness: the bounds instantiated on the concrete direct
funnel. -/
theorem C9_confidence_range_witness :
    54 ≤ cexFunnelStep.confidence ∧ cexFunnelStep.confidence ≤ 100 :=
  C9_confidence_range "https://h.example/" cexPages cexFunnelStep
    (by rw [runFunnelTail_cex_funnels]; simp)

/-- C10: stripTrackingParams and sameOrigin are partial at the public
interface: the empty string and a relative path are not parsable
absolute URLs, so both functions throw there (modelled as none),
while they succeed on parsable absolute URLs. -/
theorem C10_url_partiality :
    parseUrl "" = none ∧ stripUtmStr "" = none ∧ sameOriginStr "" "" = none ∧
    parseUrl "foo/bar" = none ∧ stripUtmStr "foo/bar" = none ∧
    sameOriginStr "foo/bar" "https://a.com/" = none ∧
    (stripUtmStr "https://a.com/").isSome = true ∧
    (sameOriginStr "https://a.com/" "https://a.com/x").isSome = true := by
  decide

end VesScrape
